import Mathlib

/-!
# gitutil: pkt-line framing, ref advertisement parsing, and the gitcmp diff

A shallow embedding of `gitutil.go` (`nextPktLine`, `parseResponse`, the two
regular expressions) and of the diff loop of `gitcmp/gitcmp.go`.

Conventions of the embedding:

* a Go `[]byte` / `string` is a `List Nat` (one number per byte);
* a reader is an in-memory reader (`bytes.Reader`, `strings.Reader`), given by
  the list of bytes not yet read;
* a Go `error` is a value of `Err`, `nil` is `none`;
* a Go `map[string]string` is an association list with distinct keys;
* Go's unspecified map iteration order is a `RangeOrder`, one per `range` statement.
-/

namespace Gitutil

/-- A Go byte slice or string: one number per byte. -/
abbrev Bytes := List Nat

/-- Bytes of an ASCII literal. -/
def ascii (s : String) : Bytes := s.data.map Char.toNat

/-- The Go error values that the embedded code can produce. -/
inductive Err where
  /-- The value `io.EOF`. -/
  | EOF
  /-- The value `io.ErrUnexpectedEOF`. -/
  | ErrUnexpectedEOF
  /-- A `*strconv.NumError` wrapping `strconv.ErrSyntax`, for input `s`. -/
  | numSyntaxErr (s : Bytes)
  /-- A `*strconv.NumError` wrapping `strconv.ErrRange`, for input `s`. -/
  | numRangeErr (s : Bytes)
  /-- The error `fmt.Errorf("bad pkt-len %q (%d)", nb, n)`. -/
  | badPktLen (nb : Bytes) (n : Nat)
  /-- The error `fmt.Errorf("first five bytes %.5q are bad", body)`. -/
  | badFirstFive (body : Bytes)
  /-- The error `fmt.Errorf("bad pkt-line: %v", err)`. -/
  | badPktLine (e : Err)
  /-- The error `fmt.Errorf("bad ref line %q", ds)`. -/
  | badRefLine (ds : Bytes)
  /-- The error `fmt.Errorf("bad response status %d", resp.StatusCode)`. -/
  | badStatus (code : Int)
  /-- The error `fmt.Errorf("bad response Content-Type %q", ct)`. -/
  | badContentType (ct : Bytes)
  /-- Any other error value, such as one returned by the HTTP transport. -/
  | other (msg : Bytes)
  deriving DecidableEq, Repr

deriving instance DecidableEq for Except

/-! ## Library functions used by the source -/

/-- The function `io.ReadFull(r, buf)` with `len(buf) = k` on a reader holding `r`:
the bytes stored in `buf`, the bytes left in the reader, and the error.
The error is `io.EOF` only if no byte was read, `io.ErrUnexpectedEOF` if some
but not all were; with `k = 0` nothing is read and the error is `nil`. -/
def readFull (r : Bytes) (k : Nat) : Bytes × Bytes × Option Err :=
  if k = 0 then ([], r, none)
  else if k ≤ r.length then (r.take k, r.drop k, none)
  else if r = [] then ([], [], some Err.EOF)
  else (r, [], some Err.ErrUnexpectedEOF)

/-- The helper `lower(c) = c | ('x' - 'X')` of package strconv. -/
def lower (c : Nat) : Nat := c ||| 32

/-- The digit switch in the loop of `strconv.ParseUint`: the value of byte `c`
as a digit, before the comparison with the base. -/
def digitOf (c : Nat) : Option Nat :=
  if 48 ≤ c ∧ c ≤ 57 then some (c - 48)
  else if 97 ≤ lower c ∧ lower c ≤ 122 then some (lower c - 97 + 10)
  else none

/-- The loop of `strconv.ParseUint` over the bytes of the input, with `n` a
`uint64` accumulator. -/
def parseUintLoop (s0 : Bytes) (base maxVal cutoff : Nat) : Bytes → Nat → Except Err Nat
  | [], n => .ok n
  | c :: cs, n =>
    match digitOf c with
    | none => .error (Err.numSyntaxErr s0)
    | some d =>
      if d ≥ base then .error (Err.numSyntaxErr s0)
      else if n ≥ cutoff then .error (Err.numRangeErr s0)
      else
        let m := (n * base) % 18446744073709551616
        let n1 := (m + d) % 18446744073709551616
        if n1 < m ∨ n1 > maxVal then .error (Err.numRangeErr s0)
        else parseUintLoop s0 base maxVal cutoff cs n1

/-- The call `strconv.ParseUint(s, 16, 16)`. -/
def parseUint16 (s : Bytes) : Except Err Nat :=
  if s = [] then .error (Err.numSyntaxErr s)
  else parseUintLoop s 16 65535 (18446744073709551615 / 16 + 1) s 0

/-! ## `nextPktLine` -/

/-- The three results of `nextPktLine`; `data = none` is the nil slice. -/
structure PktResult where
  data : Option Bytes
  flush : Bool
  err : Option Err
  deriving DecidableEq, Repr

/-- The function `nextPktLine` on a reader holding `r`: its results and the
bytes left in the reader. -/
def nextPktLine (r : Bytes) : PktResult × Bytes :=
  match readFull r 4 with
  | (_, r1, some e) => (⟨none, false, some e⟩, r1)
  | (nb, r1, none) =>
    if nb = [48, 48, 48, 48] then (⟨none, true, none⟩, r1)
    else
      match parseUint16 nb with
      | .error e => (⟨none, false, some e⟩, r1)
      | .ok n =>
        if n < 4 ∨ n > 65520 then (⟨none, false, some (Err.badPktLen nb n)⟩, r1)
        else
          match readFull r1 (n - 4) with
          | (d, r2, e) => (⟨some (d ++ List.replicate (n - 4 - d.length) 0), false, e⟩, r2)

/-! ## The regular expressions -/

/-- The class `[0-9a-f]`. -/
def isLowerHex (c : Nat) : Bool := (48 ≤ c && c ≤ 57) || (97 ≤ c && c ≤ 102)

/-- The class `[[:print:]]`, the ASCII range from space to tilde. -/
def isPrint (c : Nat) : Bool := 32 ≤ c && c ≤ 126

/-- The call `startRegexp.Match(body)` for the pattern `^[0-9a-f]{4}#`. -/
def startRegexp : Bytes → Bool
  | a :: b :: c :: d :: e :: _ =>
    isLowerHex a && isLowerHex b && isLowerHex c && isLowerHex d && e == 35
  | _ => false

/-- The pattern `.*\n$` against the whole remaining text: `.` matches any byte but
the newline, so the first newline has to be the last byte. -/
def matchDotStarNl : Bytes → Bool
  | [] => false
  | c :: cs => if c = 10 then cs = [] else matchDotStarNl cs

/-- The pattern `(\x00.*)?\n$` against the whole remaining text. -/
def matchRefTail : Bytes → Bool
  | [] => false
  | c :: cs => if c = 10 then cs = [] else if c = 0 then matchDotStarNl cs else false

/-- The call `refRegexp.FindStringSubmatch(ds)` for the pattern
`^([0-9a-f]{40}) ([[:print:]]+)(\x00.*)?\n$`: `none` is the nil result, and
`some (m1, m2)` holds the submatches `m[1]` and `m[2]`. The name group is
followed by a NUL or a newline, neither of them printable, so it is the
longest printable run after the space. -/
def refRegexp (ds : Bytes) : Option (Bytes × Bytes) :=
  let h := ds.take 40
  if h.length = 40 ∧ h.all isLowerHex then
    match ds.drop 40 with
    | c :: r1 =>
      if c = 32 then
        let name := r1.takeWhile isPrint
        if name ≠ [] ∧ matchRefTail (r1.dropWhile isPrint) then some (h, name) else none
      else none
    | [] => none
  else none

/-! ## `parseResponse` -/

/-- A Go `map[string]string`: an association list with distinct keys. -/
abbrev RefMap := List (Bytes × Bytes)

/-- The lookup `v, ok := m[k]`: `none` when `ok` is false. -/
def mapGet : RefMap → Bytes → Option Bytes
  | [], _ => none
  | (k1, v1) :: m, k => if k1 = k then some v1 else mapGet m k

/-- The assignment `m[k] = v`. -/
def mapSet : RefMap → Bytes → Bytes → RefMap
  | [], k, v => [(k, v)]
  | (k1, v1) :: m, k, v => if k1 = k then (k, v) :: m else (k1, v1) :: mapSet m k v

/-- The call `delete(m, k)`. -/
def mapDelete (m : RefMap) (k : Bytes) : RefMap := m.filter (fun e => e.1 ≠ k)

/-- The keys of a map. -/
def mapKeys (m : RefMap) : List Bytes := m.map Prod.fst

/-- The literal `"# service=git-upload-pack\n"`. -/
def serviceLine : Bytes := ascii "# service=git-upload-pack\n"

/-- The `for` loop of `parseResponse` on the reader `br` with the map `refs`,
run for at most `fuel` iterations: `none` when the fuel runs out, otherwise the
returned pair, an error (with a nil map) or the map (with a nil error). -/
def parseLoop : Nat → Bytes → RefMap → Option (Except Err RefMap)
  | 0, _, _ => none
  | fuel + 1, br, refs =>
    match nextPktLine br with
    | (⟨_, _, some Err.EOF⟩, _) => some (.ok refs)
    | (⟨_, _, some e⟩, _) => some (.error (Err.badPktLine e))
    | (⟨data, flush, none⟩, br1) =>
      if !flush then
        let ds := data.getD []
        if ds = serviceLine then parseLoop fuel br1 refs
        else
          match refRegexp ds with
          | none => some (.error (Err.badRefLine ds))
          | some (m1, m2) => parseLoop fuel br1 (mapSet refs m2 m1)
      else parseLoop fuel br1 refs

/-- The function `parseResponse`. Every iteration of its loop that does not
return reads at least four bytes, so `body.length + 1` iterations suffice
(`parseResponse_total`). -/
def parseResponse (body : Bytes) : Option (Except Err RefMap) :=
  if !startRegexp body then some (.error (Err.badFirstFive body))
  else parseLoop (body.length + 1) body []

/-! ## The diff of `gitcmp` -/

/-- One `fmt.Printf` call of the diff, with its arguments. -/
inductive Line where
  /-- The call `fmt.Printf("%s differs: %s vs. %s\n", ref, hash1, hash2)`. -/
  | differs (ref hash1 hash2 : Bytes)
  /-- The call `fmt.Printf("Only in %s: %s\n", u, ref)`. -/
  | onlyIn (u ref : Bytes)
  deriving DecidableEq, Repr

/-- The ref name a line reports. -/
def Line.ref : Line → Bytes
  | .differs ref _ _ => ref
  | .onlyIn _ ref => ref

/-- The bytes a line writes to standard output. -/
def Line.render : Line → Bytes
  | .differs ref hash1 hash2 => ref ++ ascii " differs: " ++ hash1 ++ ascii " vs. " ++ hash2 ++ [10]
  | .onlyIn u ref => ascii "Only in " ++ u ++ ascii ": " ++ ref ++ [10]

/-- The order in which one `range` statement visits the entries of a map: Go
leaves it unspecified, so it is any rearrangement of the entries. -/
structure RangeOrder where
  ord : RefMap → RefMap
  perm : ∀ m, (ord m).Perm m

/-- The order that visits the entries as they are listed. -/
def RangeOrder.listed : RangeOrder := ⟨fun m => m, fun m => List.Perm.refl m⟩

/-- The order that visits the entries last to first. -/
def RangeOrder.reversed : RangeOrder := ⟨fun m => m.reverse, fun m => List.reverse_perm m⟩

/-- The variables of `main` that the diff touches: the lines printed so far,
the two maps, and the variable `ok` declared before the loop. -/
structure DiffState where
  out : List Line
  refs1 : RefMap
  refs2 : RefMap
  ok : Bool
  deriving DecidableEq, Repr

/-- The body of the loop `for ref, hash1 := range refs1`. The statement
`hash2, ok := refs2[ref]` declares both of its variables anew in the scope of
the body, so `ok = false` assigns that inner variable and the `ok` of `main`
keeps its value. -/
def diffBody (s : DiffState) (e : Bytes × Bytes) : DiffState :=
  let ref := e.1
  let hash1 := e.2
  let (hash2, ok) : Bytes × Bool :=
    match mapGet s.refs2 ref with
    | some h => (h, true)
    | none => ([], false)
  if !ok then s
  else
    let (out, _) : List Line × Bool :=
      if hash1 ≠ hash2 then (s.out ++ [Line.differs ref hash1 hash2], false) else (s.out, ok)
    { out := out, refs1 := mapDelete s.refs1 ref, refs2 := mapDelete s.refs2 ref, ok := s.ok }

/-- The closure `only` of `main`. -/
def only (o : RangeOrder) (u : Bytes) (refs : RefMap) : List Line :=
  (o.ord refs).map (fun e => Line.onlyIn u e.1)

/-- The part of `main` after `wg.Wait()`: the lines printed, in order, and the
exit code (0 when `main` returns, 1 for `os.Exit(1)`). The loop deletes only
the entry it is visiting, so it visits every entry of `refs1` once. -/
def gitcmp (o1 o2 o3 : RangeOrder) (repo1 repo2 : Bytes) (refs1 refs2 : RefMap) :
    List Line × Nat :=
  let s := (o1.ord refs1).foldl diffBody { out := [], refs1 := refs1, refs2 := refs2, ok := true }
  let out := s.out ++ only o2 repo1 s.refs1 ++ only o3 repo2 s.refs2
  (out, if !s.ok then 1 else 0)

/-! ## Encoders and reference predicates used to state the properties -/

/-- The value of a hexadecimal digit, of either case. -/
def hexValue (c : Nat) : Option Nat :=
  if 48 ≤ c ∧ c ≤ 57 then some (c - 48)
  else if 97 ≤ c ∧ c ≤ 102 then some (c - 87)
  else if 65 ≤ c ∧ c ≤ 70 then some (c - 55)
  else none

/-- The four bytes `nb` are hexadecimal digits that encode `n`, most significant first. -/
def Hex4 (nb : Bytes) (n : Nat) : Prop :=
  ∃ a b c d va vb vc vd, nb = [a, b, c, d] ∧ hexValue a = some va ∧ hexValue b = some vb ∧
    hexValue c = some vc ∧ hexValue d = some vd ∧ n = 4096 * va + 256 * vb + 16 * vc + vd

/-- The lowercase hexadecimal digit of a value below 16. -/
def hexDigit (v : Nat) : Nat := if v < 10 then 48 + v else 87 + v

/-- The four-digit lowercase hexadecimal encoding of `n`. -/
def hex4 (n : Nat) : Bytes :=
  [hexDigit (n / 4096 % 16), hexDigit (n / 256 % 16), hexDigit (n / 16 % 16), hexDigit (n % 16)]

/-- The pkt-line frame of the payload `p`: the length field, then the payload. -/
def pktLine (p : Bytes) : Bytes := hex4 (p.length + 4) ++ p

/-- The body of `sampleResp` in `gitutil_test.go`. -/
def sampleResp : Bytes :=
  ascii "001e# service=git-upload-pack\n" ++
  ascii "004895dcfa3633004da0049d3d0fa03f80589cbcaf31 refs/heads/maint\x00multi_ack\n" ++
  ascii "003fd049f6c27a2244e12041955e262a404c7faba355 refs/heads/master\n" ++
  ascii "003c2cb58b79488a98d2721cea644875a8dd0026b115 refs/tags/v1.0\n" ++
  ascii "003fa3c2e2402b99163d1d59756e5f207ae21cccba4c refs/tags/v1.0^\x7b\x7d\n"

/-- The digits that `ParseUint` accepts in base 16. -/
def digit16 (c : Nat) : Option Nat :=
  match digitOf c with
  | some d => if d ≥ 16 then none else some d
  | none => none

/-- One ref of an advertisement: its hash, its name, and the capability list
that may follow the name after a NUL byte. -/
structure RefEntry where
  hash : Bytes
  name : Bytes
  caps : Option Bytes
  deriving DecidableEq, Repr

/-- The ref line of an entry: hash, space, name, the NUL and the capabilities
when present, newline. -/
def RefEntry.line (e : RefEntry) : Bytes :=
  e.hash ++ [32] ++ e.name ++ (match e.caps with | none => [] | some c => 0 :: c) ++ [10]

/-- The hash is 40 lowercase hexadecimal characters, the name is a non-empty
string of printable ASCII characters, the capabilities hold no newline, and
the line is at most 65516 bytes long. -/
def RefEntry.wellFormed (e : RefEntry) : Bool :=
  e.hash.length == 40 && e.hash.all isLowerHex && !e.name.isEmpty && e.name.all isPrint &&
    (match e.caps with | none => true | some c => !c.contains 10) &&
    decide (e.line.length ≤ 65516)

/-- The pkt-line frames of the ref lines of the entries, in order. -/
def refFrames : List RefEntry → Bytes
  | [] => []
  | e :: es => pktLine e.line ++ refFrames es

/-- The advertisement body: the frame of the service line, then the ref frames. -/
def advertisement (es : List RefEntry) : Bytes := pktLine serviceLine ++ refFrames es

/-- The four refs of `sampleResp`. -/
def sampleEntries : List RefEntry :=
  [⟨ascii "95dcfa3633004da0049d3d0fa03f80589cbcaf31", ascii "refs/heads/maint", some (ascii "multi_ack")⟩,
   ⟨ascii "d049f6c27a2244e12041955e262a404c7faba355", ascii "refs/heads/master", none⟩,
   ⟨ascii "2cb58b79488a98d2721cea644875a8dd0026b115", ascii "refs/tags/v1.0", none⟩,
   ⟨ascii "a3c2e2402b99163d1d59756e5f207ae21cccba4c", ascii "refs/tags/v1.0^\x7b\x7d", none⟩]

/-- The byte is a hexadecimal digit, of either case. -/
def IsHexDigit (c : Nat) : Prop :=
  (48 ≤ c ∧ c ≤ 57) ∨ (97 ≤ c ∧ c ≤ 102) ∨ (65 ≤ c ∧ c ≤ 70)

/-- The byte is a decimal digit or a letter from `a` to `f`. -/
def IsLowerHexDigit (c : Nat) : Prop := (48 ≤ c ∧ c ≤ 57) ∨ (97 ≤ c ∧ c ≤ 102)

/-- The first five bytes of the body are four bytes that satisfy `P`, then `#`. -/
def StartsWithDigitsHash (P : Nat → Prop) (body : Bytes) : Prop :=
  ∃ a b c d rest, body = a :: b :: c :: d :: 35 :: rest ∧ P a ∧ P b ∧ P c ∧ P d

/-- Reading frames from `r`, every frame decodes without framing error up to and
including a data frame with payload `p`; the frames before it are flush frames,
the service line or ref lines, and `p` is neither the service line nor a ref line. -/
inductive FirstBadFrame : Bytes → Bytes → Prop where
  | here (r r1 p : Bytes) : nextPktLine r = (⟨some p, false, none⟩, r1) → p ≠ serviceLine →
      refRegexp p = none → FirstBadFrame r p
  | flush (r r1 p : Bytes) : nextPktLine r = (⟨none, true, none⟩, r1) → FirstBadFrame r1 p →
      FirstBadFrame r p
  | data (r r1 d p : Bytes) : nextPktLine r = (⟨some d, false, none⟩, r1) →
      (d = serviceLine ∨ (refRegexp d).isSome = true) → FirstBadFrame r1 p → FirstBadFrame r p

/-- The line that the body of the diff loop prints for the entry `e` of `refs1`
when the second map is `refs2`, if it prints one. -/
def diffLine (refs2 : RefMap) (e : Bytes × Bytes) : Option Line :=
  match mapGet refs2 e.1 with
  | some hash2 => if e.2 ≠ hash2 then some (Line.differs e.1 e.2 hash2) else none
  | none => none

/-! ## `RemoteRefs` -/

/-- What `RemoteRefs` uses of the response to its GET request: the status code,
the value of `resp.Header.Get("Content-Type")`, and the outcome of
`ioutil.ReadAll(resp.Body)`. -/
structure HTTPResponse where
  statusCode : Int
  contentType : Bytes
  body : Except Err Bytes

/-- The URL that `RemoteRefs` passes to `client.Get`: a slash is appended when
`strings.HasSuffix(repoURL, "/")` is false, then the query path. -/
def requestURL (repoURL : Bytes) : Bytes :=
  (if repoURL.getLast? = some 47 then repoURL else repoURL ++ [47]) ++
    ascii "info/refs?service=git-upload-pack"

/-- The function `RemoteRefs`, with `get` the method `Get` of the client in use. -/
def RemoteRefs (get : Bytes → Except Err HTTPResponse) (repoURL : Bytes) :
    Option (Except Err RefMap) :=
  match get (requestURL repoURL) with
  | .error err => some (.error err)
  | .ok resp =>
    match resp.body with
    | .error err => some (.error err)
    | .ok body =>
      if resp.statusCode ≠ 200 then some (.error (Err.badStatus resp.statusCode))
      else if resp.contentType ≠ ascii "application/x-git-upload-pack-advertisement" then
        some (.error (Err.badContentType resp.contentType))
      else parseResponse body

/-- The URL without its trailing slashes. -/
def stripSlashes (u : Bytes) : Bytes := (u.reverse.dropWhile (fun c => c == 47)).reverse

/-- The number of slashes at the end of the URL. -/
def trailingSlashes (u : Bytes) : Nat := (u.reverse.takeWhile (fun c => c == 47)).length

/-- The byte is a printable ASCII character, from space to tilde. -/
def IsPrintable (c : Nat) : Prop := 32 ≤ c ∧ c ≤ 126

/-! ## Bodies as sequences of frames -/

/-- A complete frame of a body: a data frame, with its length field as it is
written and its payload, or a flush frame. -/
inductive Frame where
  | data (nb p : Bytes)
  | flush
  deriving DecidableEq, Repr

/-- The value that four hexadecimal digits, of either case, encode. -/
def hex4Value : Bytes → Option Nat
  | [a, b, c, d] =>
    match hexValue a, hexValue b, hexValue c, hexValue d with
    | some va, some vb, some vc, some vd => some (4096 * va + 256 * vb + 16 * vc + vd)
    | _, _, _, _ => none
  | _ => none

/-- The length field of a data frame is four hexadecimal digits that encode the
length of the payload plus four, and the payload is at most 65516 bytes long. -/
def Frame.valid : Frame → Bool
  | .data nb p => hex4Value nb == some (p.length + 4) && decide (p.length ≤ 65516)
  | .flush => true

/-- The bytes of a frame. -/
def Frame.encode : Frame → Bytes
  | .data nb p => nb ++ p
  | .flush => ascii "0000"

/-- The body made of the frames, in order. -/
def encodeFrames : List Frame → Bytes
  | [] => []
  | f :: fs => f.encode ++ encodeFrames fs

/-- The submatches of `refRegexp` on the payload of a data frame: the hash and
the name of the ref line, when the frame is one. -/
def Frame.refLine : Frame → Option (Bytes × Bytes)
  | .data _ p => refRegexp p
  | .flush => none

/-- The frame is a flush frame, the service line or a ref line. -/
def Frame.accepted : Frame → Bool
  | .data _ p => p == serviceLine || (refRegexp p).isSome
  | .flush => true

/-- The loop of `parseResponse` on frames already decoded: flush frames and
service lines are skipped, ref lines are stored, any other data frame is an
error (`parseLoop_frames` relates it to `parseLoop` on the encoding). -/
def foldFrames : List Frame → RefMap → Except Err RefMap
  | [], refs => .ok refs
  | .flush :: fs, refs => foldFrames fs refs
  | .data _ p :: fs, refs =>
    if p = serviceLine then foldFrames fs refs
    else
      match refRegexp p with
      | none => .error (Err.badRefLine p)
      | some (m1, m2) => foldFrames fs (mapSet refs m2 m1)

/-- The first five bytes of the encoding of the frames are four lowercase
hexadecimal digits and `#`: the first frame is a data frame with a lowercase
length field and a payload that starts with `#`. -/
def startOK : List Frame → Bool
  | .data [a, b, c, d] (e :: _) :: _ =>
    isLowerHex a && isLowerHex b && isLowerHex c && isLowerHex d && e == 35
  | _ => false

/-- The frame `"001e# service=git-upload-pack\n"`. -/
def serviceFrame : Frame := .data (ascii "001e") serviceLine

/-- The second sequence is the first one with service frames inserted at any
places, any number of times. -/
inductive InsertService : List Frame → List Frame → Prop where
  | nil : InsertService [] []
  | keep (f : Frame) (fs gs : List Frame) : InsertService fs gs → InsertService (f :: fs) (f :: gs)
  | ins (fs gs : List Frame) : InsertService fs gs → InsertService fs (serviceFrame :: gs)

/-- The sequence without its flush frames. -/
def removeFlush (fs : List Frame) : List Frame := fs.filter (fun f => f != Frame.flush)

/-! ## Lemmas: the digit switch and `ParseUint` -/

theorem lower_ge_of_ge (c : Nat) (h : 256 ≤ c) : 256 ≤ lower c := by
  obtain ⟨i, hi, hb⟩ := Nat.ge_two_pow_implies_high_bit_true (n := 8) (x := c) (by simpa using h)
  have h2 : (c ||| 32).testBit i = true := by simp [Nat.testBit_or, hb]
  have h3 := Nat.testBit_implies_ge h2
  have h4 : 2 ^ 8 ≤ 2 ^ i := Nat.pow_le_pow_right (by norm_num) hi
  unfold lower
  omega

set_option maxRecDepth 100000 in
theorem digit16_eq_small : ∀ c, c < 256 → digit16 c = hexValue c := by decide

theorem digit16_eq (c : Nat) : digit16 c = hexValue c := by
  by_cases h : c < 256
  · exact digit16_eq_small c h
  · have h1 := lower_ge_of_ge c (by omega)
    have e1 : digitOf c = none := by
      unfold digitOf
      rw [if_neg (by omega), if_neg (by omega)]
    have e2 : hexValue c = none := by
      unfold hexValue
      rw [if_neg (by omega), if_neg (by omega), if_neg (by omega)]
    simp [digit16, e1, e2]

theorem hexValue_lt {c v : Nat} (h : hexValue c = some v) : v < 16 := by
  unfold hexValue at h
  split_ifs at h <;> simp at h <;> omega

theorem parseUintLoop_step (s0 : Bytes) (c : Nat) (cs : Bytes) (n : Nat) (hn : n < 4096) :
    parseUintLoop s0 16 65535 (18446744073709551615 / 16 + 1) (c :: cs) n =
      match hexValue c with
      | none => .error (Err.numSyntaxErr s0)
      | some d => parseUintLoop s0 16 65535 (18446744073709551615 / 16 + 1) cs (n * 16 + d) := by
  have hd := digit16_eq c
  rw [parseUintLoop]
  unfold digit16 at hd
  cases hdc : digitOf c with
  | none => rw [hdc] at hd; rw [← hd]
  | some d =>
    rw [hdc] at hd
    simp only [] at hd ⊢
    by_cases h16 : d ≥ 16
    · rw [if_pos h16] at hd
      rw [if_pos h16, ← hd]
    · rw [if_neg h16] at hd
      rw [if_neg h16, ← hd]
      simp only []
      rw [if_neg (by omega)]
      have e1 : (n * 16 % 18446744073709551616 + d) % 18446744073709551616 = n * 16 + d := by omega
      have e2 : n * 16 % 18446744073709551616 = n * 16 := by omega
      rw [e1, e2, if_neg (by omega)]

theorem parseUint16_four (a b c d : Nat) :
    parseUint16 [a, b, c, d] =
      match hexValue a, hexValue b, hexValue c, hexValue d with
      | some va, some vb, some vc, some vd => .ok (4096 * va + 256 * vb + 16 * vc + vd)
      | _, _, _, _ => .error (Err.numSyntaxErr [a, b, c, d]) := by
  unfold parseUint16
  rw [if_neg (by simp), parseUintLoop_step _ _ _ _ (by omega)]
  cases ha : hexValue a with
  | none => rfl
  | some va =>
    have := hexValue_lt ha
    simp only []
    rw [parseUintLoop_step _ _ _ _ (by omega)]
    cases hb : hexValue b with
    | none => rfl
    | some vb =>
      have := hexValue_lt hb
      simp only []
      rw [parseUintLoop_step _ _ _ _ (by omega)]
      cases hc : hexValue c with
      | none => rfl
      | some vc =>
        have := hexValue_lt hc
        simp only []
        rw [parseUintLoop_step _ _ _ _ (by omega)]
        cases hd : hexValue d with
        | none => rfl
        | some vd =>
          simp only [parseUintLoop]
          congr 1
          omega

theorem parseUint16_of_Hex4 {nb : Bytes} {n : Nat} (h : Hex4 nb n) : parseUint16 nb = .ok n := by
  obtain ⟨a, b, c, d, va, vb, vc, vd, rfl, ha, hb, hc, hd, rfl⟩ := h
  rw [parseUint16_four, ha, hb, hc, hd]

theorem Hex4_lt {nb : Bytes} {n : Nat} (h : Hex4 nb n) : n < 65536 := by
  obtain ⟨a, b, c, d, va, vb, vc, vd, rfl, ha, hb, hc, hd, rfl⟩ := h
  have := hexValue_lt ha
  have := hexValue_lt hb
  have := hexValue_lt hc
  have := hexValue_lt hd
  omega

theorem Hex4_length {nb : Bytes} {n : Nat} (h : Hex4 nb n) : nb.length = 4 := by
  obtain ⟨a, b, c, d, va, vb, vc, vd, rfl, -⟩ := h
  rfl

theorem Hex4_zeros {n : Nat} (h : Hex4 [48, 48, 48, 48] n) : n = 0 := by
  obtain ⟨a, b, c, d, va, vb, vc, vd, he, ha, hb, hc, hd, rfl⟩ := h
  simp only [List.cons.injEq, and_true] at he
  obtain ⟨rfl, rfl, rfl, rfl⟩ := he
  simp [hexValue] at ha hb hc hd
  omega

theorem hexValue_hexDigit (v : Nat) (h : v < 16) : hexValue (hexDigit v) = some v := by
  interval_cases v <;> rfl

theorem hex4_Hex4 (n : Nat) (h : n < 65536) : Hex4 (hex4 n) n := by
  refine ⟨_, _, _, _, n / 4096 % 16, n / 256 % 16, n / 16 % 16, n % 16, rfl, ?_, ?_, ?_, ?_, ?_⟩
  · exact hexValue_hexDigit _ (Nat.mod_lt _ (by norm_num))
  · exact hexValue_hexDigit _ (Nat.mod_lt _ (by norm_num))
  · exact hexValue_hexDigit _ (Nat.mod_lt _ (by norm_num))
  · exact hexValue_hexDigit _ (Nat.mod_lt _ (by norm_num))
  · omega

/-! ## Lemmas: `nextPktLine` -/

theorem readFull_append (p t : Bytes) : readFull (p ++ t) p.length = (p, t, none) := by
  unfold readFull
  by_cases h : p.length = 0
  · rw [if_pos h]
    have : p = [] := List.length_eq_zero.mp h
    subst this
    rfl
  · rw [if_neg h, if_pos (by simp)]
    simp

theorem readFull_four (a b c d : Nat) (t : Bytes) :
    readFull (a :: b :: c :: d :: t) 4 = ([a, b, c, d], t, none) :=
  readFull_append [a, b, c, d] t

theorem nextPktLine_flush_eq (t : Bytes) :
    nextPktLine (48 :: 48 :: 48 :: 48 :: t) = (⟨none, true, none⟩, t) := by
  unfold nextPktLine
  rw [readFull_four]
  simp

theorem nextPktLine_data_eq (nb p t : Bytes) (h : Hex4 nb (p.length + 4))
    (hL : p.length ≤ 65516) : nextPktLine (nb ++ p ++ t) = (⟨some p, false, none⟩, t) := by
  have hp := parseUint16_of_Hex4 h
  have hne : nb ≠ [48, 48, 48, 48] := by
    intro e
    rw [e] at h
    have := Hex4_zeros h
    omega
  obtain ⟨a, b, c, d, va, vb, vc, vd, rfl, -⟩ := h
  unfold nextPktLine
  have e1 : [a, b, c, d] ++ p ++ t = a :: b :: c :: d :: (p ++ t) := by simp
  rw [e1, readFull_four]
  simp only []
  rw [if_neg hne, hp]
  simp only []
  rw [if_neg (by omega), Nat.add_sub_cancel, readFull_append]
  simp

theorem readFull_rest_length (r : Bytes) (k : Nat) : (readFull r k).2.1.length ≤ r.length := by
  unfold readFull
  split_ifs <;> simp

theorem nextPktLine_short (r : Bytes) (h : r.length < 4) :
    nextPktLine r = (⟨none, false, some (if r = [] then Err.EOF else Err.ErrUnexpectedEOF)⟩, []) := by
  unfold nextPktLine readFull
  rw [if_neg (by norm_num), if_neg (by omega)]
  by_cases hr : r = []
  · simp [hr]
  · simp [hr]

theorem nextPktLine_consumes (r : Bytes) (h : (nextPktLine r).1.err = none) :
    (nextPktLine r).2.length + 4 ≤ r.length := by
  match r, h with
  | [], h => rw [nextPktLine_short [] (by simp)] at h; simp at h
  | [_], h => rw [nextPktLine_short _ (by simp)] at h; simp at h
  | [_, _], h => rw [nextPktLine_short _ (by simp)] at h; simp at h
  | [_, _, _], h => rw [nextPktLine_short _ (by simp)] at h; simp at h
  | a :: b :: c :: d :: t, h =>
    have hl := readFull_rest_length t
    unfold nextPktLine at h ⊢
    rw [readFull_four] at h ⊢
    simp only [] at h ⊢
    split_ifs at h ⊢ with h1
    · simp
    · cases hp : parseUint16 [a, b, c, d] with
      | error e => simp [hp] at h
      | ok n =>
        simp only [hp] at h ⊢
        split_ifs at h ⊢ with h2
        have h3 : (readFull t (n - 4)).2.1.length ≤ t.length := hl (n - 4)
        show (readFull t (n - 4)).2.1.length + 4 ≤ t.length + 1 + 1 + 1 + 1
        exact Nat.add_le_add_right h3 4

theorem parseLoop_fuel (f : Nat) : ∀ (g : Nat) (r : Bytes) (refs : RefMap),
    r.length < f → r.length < g → parseLoop f r refs = parseLoop g r refs := by
  induction f with
  | zero => intro g r refs h; omega
  | succ n ih =>
    intro g r refs hf hg
    cases g with
    | zero => omega
    | succ m =>
      have hc := nextPktLine_consumes r
      rw [parseLoop, parseLoop]
      rcases hnp : nextPktLine r with ⟨⟨data, flush, err⟩, br1⟩
      rw [hnp] at hc
      cases err with
      | some e => cases e <;> rfl
      | none =>
        have hlen : br1.length + 4 ≤ r.length := hc rfl
        have e1 : ∀ refs1, parseLoop n br1 refs1 = parseLoop m br1 refs1 :=
          fun refs1 => ih m br1 refs1 (by omega) (by omega)
        simp only [e1]

/-- The loop of `parseResponse` with the fuel that `parseResponse` gives it. -/
theorem parseLoop_total (f : Nat) : ∀ (r : Bytes) (refs : RefMap),
    r.length < f → (parseLoop f r refs).isSome = true := by
  induction f with
  | zero => intro r refs h; omega
  | succ n ih =>
    intro r refs hf
    have hc := nextPktLine_consumes r
    rw [parseLoop]
    rcases hnp : nextPktLine r with ⟨⟨data, flush, err⟩, br1⟩
    rw [hnp] at hc
    cases err with
    | some e => cases e <;> rfl
    | none =>
      have hlen : br1.length + 4 ≤ r.length := hc rfl
      have e1 : ∀ refs1, (parseLoop n br1 refs1).isSome = true :=
        fun refs1 => ih br1 refs1 (by omega)
      simp only []
      split_ifs
      · exact e1 _
      · split
        · rfl
        · exact e1 _
      · exact e1 _

theorem parseResponse_total (body : Bytes) : (parseResponse body).isSome = true := by
  unfold parseResponse
  split_ifs
  · rfl
  · exact parseLoop_total _ _ _ (by omega)

/-! ## Lemmas: maps -/

theorem mapGet_mapSet_self (m : RefMap) (k v : Bytes) : mapGet (mapSet m k v) k = some v := by
  induction m with
  | nil => simp [mapSet, mapGet]
  | cons e m ih =>
    obtain ⟨k1, v1⟩ := e
    by_cases h : k1 = k
    · simp [mapSet, mapGet, h]
    · simp [mapSet, mapGet, h, ih]

theorem mapGet_mapSet_ne (m : RefMap) (k v k2 : Bytes) (hne : k2 ≠ k) :
    mapGet (mapSet m k v) k2 = mapGet m k2 := by
  induction m with
  | nil => simp [mapSet, mapGet, Ne.symm hne]
  | cons e m ih =>
    obtain ⟨k1, v1⟩ := e
    by_cases h : k1 = k
    · subst h
      simp [mapSet, mapGet, Ne.symm hne]
    · simp [mapSet, mapGet, h, ih]

theorem mem_mapKeys_iff (m : RefMap) (k : Bytes) : k ∈ mapKeys m ↔ (mapGet m k).isSome = true := by
  induction m with
  | nil => simp [mapKeys, mapGet]
  | cons e m ih =>
    obtain ⟨k1, v1⟩ := e
    unfold mapKeys at ih ⊢
    by_cases h : k1 = k
    · simp [mapGet, h]
    · simp [mapGet, h, ih, Ne.symm h]

theorem mem_mapKeys_mapSet (m : RefMap) (k v k2 : Bytes) :
    k2 ∈ mapKeys (mapSet m k v) ↔ k2 = k ∨ k2 ∈ mapKeys m := by
  rw [mem_mapKeys_iff, mem_mapKeys_iff]
  by_cases h : k2 = k
  · subst h
    simp [mapGet_mapSet_self]
  · simp [mapGet_mapSet_ne _ _ _ _ h, h]

theorem nodup_mapKeys_mapSet (m : RefMap) (k v : Bytes) (h : (mapKeys m).Nodup) :
    (mapKeys (mapSet m k v)).Nodup := by
  induction m with
  | nil => simp [mapSet, mapKeys]
  | cons e m ih =>
    obtain ⟨k1, v1⟩ := e
    have h1 : k1 ∉ mapKeys m ∧ (mapKeys m).Nodup := by simpa [mapKeys] using h
    by_cases hk : k1 = k
    · subst hk
      simpa [mapSet, mapKeys] using h
    · have h2 : k1 ∉ mapKeys (mapSet m k v) := by
        rw [mem_mapKeys_mapSet]
        simp [hk, h1.1]
      have h3 := ih h1.2
      simp only [mapSet, if_neg hk]
      unfold mapKeys at h2 h3 ⊢
      exact List.nodup_cons.mpr ⟨h2, h3⟩

/-! ## Lemmas: the regular expressions -/

theorem matchDotStarNl_append (caps : Bytes) (h : 10 ∉ caps) :
    matchDotStarNl (caps ++ [10]) = true := by
  induction caps with
  | nil => simp [matchDotStarNl]
  | cons c cs ih =>
    have hc : c ≠ 10 := fun e => h (by simp [e])
    have hcs : 10 ∉ cs := fun e => h (by simp [e])
    simp [matchDotStarNl, hc, ih hcs]

theorem refRegexp_line (h name opt : Bytes) (hlen : h.length = 40)
    (hhex : ∀ c ∈ h, isLowerHex c = true) (hne : name ≠ [])
    (hprint : ∀ c ∈ name, isPrint c = true)
    (hopt : opt = [] ∨ ∃ caps, opt = 0 :: caps ∧ 10 ∉ caps) :
    refRegexp (h ++ [32] ++ name ++ opt ++ [10]) = some (h, name) := by
  have e0 : h ++ [32] ++ name ++ opt ++ [10] = h ++ (32 :: (name ++ (opt ++ [10]))) := by simp
  have htw : List.takeWhile isPrint (opt ++ [10]) = [] := by
    rcases hopt with rfl | ⟨caps, rfl, -⟩ <;> simp [List.takeWhile, isPrint]
  have hdw : List.dropWhile isPrint (opt ++ [10]) = opt ++ [10] := by
    rcases hopt with rfl | ⟨caps, rfl, -⟩ <;> simp [List.dropWhile, isPrint]
  have htail : matchRefTail (opt ++ [10]) = true := by
    rcases hopt with rfl | ⟨caps, rfl, hc⟩
    · simp [matchRefTail]
    · simp [matchRefTail, matchDotStarNl_append caps hc]
  unfold refRegexp
  rw [e0, List.take_left' hlen, List.drop_left' hlen]
  simp only []
  rw [if_pos ⟨hlen, List.all_eq_true.mpr hhex⟩]
  rw [if_pos trivial, List.takeWhile_append_of_pos hprint, List.dropWhile_append_of_pos hprint,
    htw, hdw, List.append_nil, if_pos ⟨hne, htail⟩]

/-! ## Lemmas: the loop of `parseResponse` -/

theorem parseLoop_eof (f : Nat) (refs : RefMap) : parseLoop (f + 1) [] refs = some (.ok refs) := by
  rw [parseLoop, nextPktLine_short [] (by simp)]
  rfl

theorem parseLoop_step (r br1 : Bytes) (data : Option Bytes) (flush : Bool) (refs : RefMap)
    (h : nextPktLine r = (⟨data, flush, none⟩, br1)) :
    parseLoop (r.length + 1) r refs =
      if flush = true then parseLoop (br1.length + 1) br1 refs
      else if data.getD [] = serviceLine then parseLoop (br1.length + 1) br1 refs
      else
        match refRegexp (data.getD []) with
        | none => some (.error (Err.badRefLine (data.getD [])))
        | some (m1, m2) => parseLoop (br1.length + 1) br1 (mapSet refs m2 m1) := by
  have hc := nextPktLine_consumes r
  rw [h] at hc
  have hlen : br1.length + 4 ≤ r.length := hc rfl
  have e1 : ∀ refs1, parseLoop r.length br1 refs1 = parseLoop (br1.length + 1) br1 refs1 :=
    fun refs1 => parseLoop_fuel _ _ _ _ (by omega) (by omega)
  rw [parseLoop, h]
  simp only [e1]
  cases flush <;> simp

theorem parseLoop_error (r br1 : Bytes) (data : Option Bytes) (flush : Bool) (e : Err)
    (refs : RefMap) (f : Nat) (h : nextPktLine r = (⟨data, flush, some e⟩, br1)) :
    parseLoop (f + 1) r refs =
      if e = Err.EOF then some (.ok refs) else some (.error (Err.badPktLine e)) := by
  rw [parseLoop, h]
  cases e <;> simp

theorem parseLoop_pktLine (p t : Bytes) (refs : RefMap) (hL : p.length ≤ 65516) :
    parseLoop ((pktLine p ++ t).length + 1) (pktLine p ++ t) refs =
      if p = serviceLine then parseLoop (t.length + 1) t refs
      else
        match refRegexp p with
        | none => some (.error (Err.badRefLine p))
        | some (m1, m2) => parseLoop (t.length + 1) t (mapSet refs m2 m1) := by
  have h := nextPktLine_data_eq (hex4 (p.length + 4)) p t (hex4_Hex4 _ (by omega)) hL
  unfold pktLine
  rw [parseLoop_step _ _ _ _ _ h]
  simp

theorem parseLoop_flush (t : Bytes) (refs : RefMap) :
    parseLoop ((48 :: 48 :: 48 :: 48 :: t).length + 1) (48 :: 48 :: 48 :: 48 :: t) refs =
      parseLoop (t.length + 1) t refs := by
  rw [parseLoop_step _ _ _ _ _ (nextPktLine_flush_eq t)]
  simp

/-! ## Lemmas: well-formed advertisements -/

theorem wellFormed_iff (e : RefEntry) :
    e.wellFormed = true ↔
      e.hash.length = 40 ∧ (∀ c ∈ e.hash, isLowerHex c = true) ∧ e.name ≠ [] ∧
        (∀ c ∈ e.name, isPrint c = true) ∧ (∀ c, e.caps = some c → 10 ∉ c) ∧
        e.line.length ≤ 65516 := by
  obtain ⟨hash, name, caps⟩ := e
  cases caps <;> cases name <;>
    simp [RefEntry.wellFormed, List.all_eq_true, and_assoc]

theorem serviceLine_length : serviceLine.length = 26 := by decide

theorem line_of_wellFormed (e : RefEntry) (h : e.wellFormed = true) :
    refRegexp e.line = some (e.hash, e.name) ∧ e.line ≠ serviceLine ∧ e.line.length ≤ 65516 := by
  obtain ⟨h1, h2, h3, h4, h5, h6⟩ := (wellFormed_iff e).mp h
  refine ⟨?_, ?_, h6⟩
  · unfold RefEntry.line
    apply refRegexp_line _ _ _ h1 h2 h3 h4
    cases hc : e.caps with
    | none => exact Or.inl rfl
    | some c => exact Or.inr ⟨c, rfl, h5 c hc⟩
  · intro heq
    have hl : e.line.length = 26 := by rw [heq, serviceLine_length]
    have : 40 ≤ e.line.length := by
      unfold RefEntry.line
      simp only [List.length_append]
      omega
    omega

theorem parseLoop_refFrames (es : List RefEntry) (hwf : ∀ e ∈ es, e.wellFormed = true) :
    ∀ refs : RefMap, parseLoop ((refFrames es).length + 1) (refFrames es) refs =
      some (.ok (es.foldl (fun m e => mapSet m e.name e.hash) refs)) := by
  induction es with
  | nil => intro refs; exact parseLoop_eof _ _
  | cons e es ih =>
    intro refs
    obtain ⟨h1, h2, h3⟩ := line_of_wellFormed e (hwf e (by simp))
    have ih1 := ih (fun x hx => hwf x (by simp [hx]))
    show parseLoop ((pktLine e.line ++ refFrames es).length + 1) (pktLine e.line ++ refFrames es)
      refs = _
    rw [parseLoop_pktLine _ _ _ h3, if_neg h2, h1]
    exact ih1 _

theorem startRegexp_advertisement (es : List RefEntry) : startRegexp (advertisement es) = true := by
  rfl

theorem parseResponse_advertisement_eq (es : List RefEntry)
    (hwf : ∀ e ∈ es, e.wellFormed = true) :
    parseResponse (advertisement es) =
      some (.ok (es.foldl (fun m e => mapSet m e.name e.hash) [])) := by
  unfold parseResponse
  rw [startRegexp_advertisement]
  simp only [Bool.not_true, Bool.false_eq_true, if_false]
  unfold advertisement
  rw [parseLoop_pktLine _ _ _ (by rw [serviceLine_length]; omega), if_pos rfl]
  exact parseLoop_refFrames es hwf []

theorem mem_mapKeys_foldl (es : List RefEntry) : ∀ (refs : RefMap) (k : Bytes),
    k ∈ mapKeys (es.foldl (fun m e => mapSet m e.name e.hash) refs) ↔
      k ∈ mapKeys refs ∨ k ∈ es.map (fun e => e.name) := by
  induction es with
  | nil => intro refs k; simp
  | cons e es ih =>
    intro refs k
    rw [List.foldl_cons, ih, mem_mapKeys_mapSet]
    simp only [List.map_cons, List.mem_cons]
    tauto

theorem nodup_mapKeys_foldl (es : List RefEntry) : ∀ (refs : RefMap), (mapKeys refs).Nodup →
    (mapKeys (es.foldl (fun m e => mapSet m e.name e.hash) refs)).Nodup := by
  induction es with
  | nil => intro refs h; exact h
  | cons e es ih =>
    intro refs h
    rw [List.foldl_cons]
    exact ih _ (nodup_mapKeys_mapSet _ _ _ h)

theorem mapGet_foldl_not_mem (es : List RefEntry) : ∀ (refs : RefMap) (k : Bytes),
    k ∉ es.map (fun e => e.name) →
    mapGet (es.foldl (fun m e => mapSet m e.name e.hash) refs) k = mapGet refs k := by
  induction es with
  | nil => intro refs k _; rfl
  | cons e es ih =>
    intro refs k hk
    simp only [List.map_cons, List.mem_cons, not_or] at hk
    rw [List.foldl_cons, ih _ _ hk.2, mapGet_mapSet_ne _ _ _ _ hk.1]

theorem mapGet_foldl_mem (es : List RefEntry) (hnd : (es.map (fun e => e.name)).Nodup) :
    ∀ (refs : RefMap) (e : RefEntry), e ∈ es →
    mapGet (es.foldl (fun m e => mapSet m e.name e.hash) refs) e.name = some e.hash := by
  induction es with
  | nil => intro refs e he; simp at he
  | cons x es ih =>
    intro refs e he
    simp only [List.map_cons, List.nodup_cons] at hnd
    rw [List.foldl_cons]
    rcases List.mem_cons.mp he with rfl | hmem
    · rw [mapGet_foldl_not_mem _ _ _ hnd.1, mapGet_mapSet_self]
    · exact ih hnd.2 _ e hmem

/-! ## The ref advertisement is parsed into its refs -/

/-- C1: for every list of ref entries with pairwise distinct names, each with a
hash of 40 lowercase hexadecimal characters, a non-empty printable name, an
optional capability suffix without newline and a line of at most 65516 bytes,
`parseResponse` on the frame of the service line followed by the frames of the
ref lines returns no error and a map whose keys are exactly the names, each
mapped to its hash. -/
theorem parseResponse_advertisement (es : List RefEntry)
    (hwf : ∀ e ∈ es, e.wellFormed = true) (hnd : (es.map (fun e => e.name)).Nodup) :
    ∃ m, parseResponse (advertisement es) = some (.ok m) ∧ (mapKeys m).Nodup ∧
      (∀ k, k ∈ mapKeys m ↔ k ∈ es.map (fun e => e.name)) ∧
      (∀ e ∈ es, mapGet m e.name = some e.hash) := by
  refine ⟨_, parseResponse_advertisement_eq es hwf, ?_, ?_, ?_⟩
  · exact nodup_mapKeys_foldl es [] (by simp [mapKeys])
  · intro k
    rw [mem_mapKeys_foldl]
    simp [mapKeys]
  · intro e he
    exact mapGet_foldl_mem es hnd [] e he

set_option maxRecDepth 100000 in
/-- The body `sampleResp` of the test is the advertisement of its four refs, and
`parseResponse` returns exactly these four refs for it. -/
theorem parseResponse_advertisement_witness :
    advertisement sampleEntries = sampleResp ∧
    (∀ e ∈ sampleEntries, e.wellFormed = true) ∧
    (sampleEntries.map (fun e => e.name)).Nodup ∧
    ∃ m, parseResponse sampleResp = some (.ok m) ∧ (mapKeys m).Nodup ∧
      (∀ k, k ∈ mapKeys m ↔ k ∈ sampleEntries.map (fun e => e.name)) ∧
      (∀ e ∈ sampleEntries, mapGet m e.name = some e.hash) := by
  have hs : advertisement sampleEntries = sampleResp := by decide
  have h := parseResponse_advertisement sampleEntries (by decide) (by decide)
  rw [hs] at h
  exact ⟨hs, by decide, by decide, h⟩

/-! ## The framer -/

/-- C2: for every payload `p` of at most 65516 bytes, every four hexadecimal
digits `nb` that encode `p.length + 4` and every trailing byte string `t`,
`nextPktLine` on a reader over `nb ++ p ++ t` returns the data `p`, no flush
and a nil error, and leaves exactly `t` unread. -/
theorem nextPktLine_roundtrip (nb p t : Bytes) (hnb : Hex4 nb (p.length + 4))
    (hL : p.length ≤ 65516) :
    nextPktLine (nb ++ p ++ t) = (⟨some p, false, none⟩, t) :=
  nextPktLine_data_eq nb p t hnb hL

/-- The test case `"000bfoobar\nxxxx"`: the length field is the lowercase
encoding of 11, the payload is `"foobar\n"` and `"xxxx"` is left unread. -/
theorem nextPktLine_roundtrip_witness :
    hex4 (7 + 4) = ascii "000b" ∧
    nextPktLine (ascii "000b" ++ ascii "foobar\n" ++ ascii "xxxx") =
      (⟨some (ascii "foobar\n"), false, none⟩, ascii "xxxx") :=
  ⟨by decide,
   nextPktLine_roundtrip (ascii "000b") (ascii "foobar\n") (ascii "xxxx")
     (hex4_Hex4 11 (by decide)) (by decide)⟩

/-- C6: for every reader whose first four bytes are not `"0000"`: if one of
them is not a hexadecimal digit, or they encode a value below 4 or above 65520,
`nextPktLine` returns an error other than `io.EOF`, a nil slice and no flush,
whatever bytes `t` follow the length field. -/
theorem nextPktLine_malformed_length (a b c d : Nat) (t : Bytes)
    (h0 : [a, b, c, d] ≠ ascii "0000")
    (hbad : (∃ x ∈ [a, b, c, d], hexValue x = none) ∨
      ∃ n, Hex4 [a, b, c, d] n ∧ (n < 4 ∨ 65520 < n)) :
    ∃ e, e ≠ Err.EOF ∧ nextPktLine ([a, b, c, d] ++ t) = (⟨none, false, some e⟩, t) := by
  have h0 : [a, b, c, d] ≠ [48, 48, 48, 48] := h0
  show ∃ e, e ≠ Err.EOF ∧ nextPktLine (a :: b :: c :: d :: t) = (⟨none, false, some e⟩, t)
  unfold nextPktLine
  rw [readFull_four]
  simp only []
  rw [if_neg h0]
  rcases hbad with ⟨x, hx, hv⟩ | ⟨n, hn, hr⟩
  · refine ⟨Err.numSyntaxErr [a, b, c, d], by simp, ?_⟩
    have : parseUint16 [a, b, c, d] = .error (Err.numSyntaxErr [a, b, c, d]) := by
      rw [parseUint16_four]
      simp only [List.mem_cons, List.mem_singleton, List.not_mem_nil, or_false] at hx
      rcases hx with rfl | rfl | rfl | rfl
      · rw [hv]
      · rw [hv]; split <;> simp_all
      · rw [hv]; split <;> simp_all
      · rw [hv]; split <;> simp_all
    rw [this]
  · refine ⟨Err.badPktLen [a, b, c, d] n, by simp, ?_⟩
    rw [parseUint16_of_Hex4 hn]
    simp only []
    rw [if_pos (by omega)]

/-- The length field `"0003"` encodes 3, which cannot account for its own header. -/
theorem nextPktLine_malformed_length_witness :
    ∃ e, e ≠ Err.EOF ∧
      nextPktLine (ascii "0003" ++ ascii "abc") = (⟨none, false, some e⟩, ascii "abc") :=
  nextPktLine_malformed_length 48 48 48 51 (ascii "abc") (by decide)
    (Or.inr ⟨3, hex4_Hex4 3 (by decide), Or.inl (by decide)⟩)

/-- C8: for every reader whose next four bytes are `"0000"`, whatever bytes `t`
follow, `nextPktLine` returns flush, a nil slice and a nil error, and consumes
exactly those four bytes. -/
theorem nextPktLine_flush (t : Bytes) :
    nextPktLine (ascii "0000" ++ t) = (⟨none, true, none⟩, t) :=
  nextPktLine_flush_eq t

/-! ## End of input inside a frame -/

/-- C7: on the reader `"0005"`, a length field that declares one payload byte
followed by none, `nextPktLine` returns `io.EOF`, the end-of-sequence signal,
although four bytes were available when the length field was read. -/
theorem nextPktLine_eof_after_length_field :
    nextPktLine (ascii "0005") = (⟨some [0], false, some Err.EOF⟩, []) := by
  decide

set_option maxRecDepth 100000 in
/-- C3: the body that ends right after the length field `"003c"` of a second
ref frame is accepted: `parseResponse` returns no error and the map of the one
ref that precedes the truncated frame. -/
theorem parseResponse_accepts_truncated_body :
    parseResponse (ascii "001e# service=git-upload-pack\n" ++
        ascii "003fd049f6c27a2244e12041955e262a404c7faba355 refs/heads/master\n" ++
        ascii "003c") =
      some (.ok [(ascii "refs/heads/master", ascii "d049f6c27a2244e12041955e262a404c7faba355")]) := by
  decide

/-! ## The handshake check -/

theorem isLowerHex_iff (c : Nat) : isLowerHex c = true ↔ IsLowerHexDigit c := by
  simp [isLowerHex, IsLowerHexDigit]

theorem startRegexp_iff (body : Bytes) :
    startRegexp body = true ↔ StartsWithDigitsHash IsLowerHexDigit body := by
  constructor
  · intro h
    match body, h with
    | a :: b :: c :: d :: e :: rest, h =>
      simp only [startRegexp, Bool.and_eq_true, beq_iff_eq, isLowerHex_iff] at h
      obtain ⟨⟨⟨⟨ha, hb⟩, hc⟩, hd⟩, rfl⟩ := h
      exact ⟨a, b, c, d, rest, rfl, ha, hb, hc, hd⟩
  · rintro ⟨a, b, c, d, rest, rfl, ha, hb, hc, hd⟩
    simp only [startRegexp, Bool.and_eq_true, beq_iff_eq, isLowerHex_iff]
    exact ⟨⟨⟨⟨ha, hb⟩, hc⟩, hd⟩, trivial⟩

theorem parseLoop_ne_badFirstFive (f : Nat) : ∀ (r : Bytes) (refs : RefMap) (b : Bytes),
    parseLoop f r refs ≠ some (.error (Err.badFirstFive b)) := by
  induction f with
  | zero => intro r refs b; simp [parseLoop]
  | succ n ih =>
    intro r refs b
    rw [parseLoop]
    rcases hnp : nextPktLine r with ⟨⟨data, flush, err⟩, br1⟩
    cases err with
    | some e => cases e <;> simp
    | none =>
      simp only []
      split_ifs
      · exact ih _ _ _
      · split
        · simp
        · exact ih _ _ _
      · exact ih _ _ _

/-- C9, amended: `parseResponse` fails with the handshake error exactly when
the first five bytes of the body are not four lowercase hexadecimal digits
followed by `#`, bodies shorter than five bytes included. -/
theorem parseResponse_handshake_iff (body : Bytes) :
    (∃ b, parseResponse body = some (.error (Err.badFirstFive b))) ↔
      ¬ StartsWithDigitsHash IsLowerHexDigit body := by
  rw [← startRegexp_iff]
  unfold parseResponse
  by_cases h : startRegexp body = true
  · simp [h, parseLoop_ne_badFirstFive]
  · simp [h]

set_option maxRecDepth 100000 in
/-- C9 as stated fails: the first five bytes of this body are four hexadecimal
digits followed by `#`, and `parseResponse` fails with the handshake error,
because the digit `E` is upper case. -/
theorem parseResponse_handshake_rejects_uppercase :
    StartsWithDigitsHash IsHexDigit (ascii "001E# service=git-upload-pack\n") ∧
    parseResponse (ascii "001E# service=git-upload-pack\n") =
      some (.error (Err.badFirstFive (ascii "001E# service=git-upload-pack\n"))) := by
  refine ⟨⟨48, 48, 49, 69, ascii " service=git-upload-pack\n", by decide, ?_, ?_, ?_, ?_⟩, by decide⟩ <;>
    simp [IsHexDigit]

/-! ## A frame that is not a ref line -/

theorem parseLoop_firstBadFrame (r p : Bytes) (h : FirstBadFrame r p) :
    ∀ refs : RefMap, parseLoop (r.length + 1) r refs = some (.error (Err.badRefLine p)) := by
  induction h with
  | here r r1 p hn hs hr =>
    intro refs
    rw [parseLoop_step _ _ _ _ _ hn]
    simp [hs, hr]
  | flush r r1 p hn _ ih =>
    intro refs
    rw [parseLoop_step _ _ _ _ _ hn]
    simpa using ih refs
  | data r r1 d p hn hd _ ih =>
    intro refs
    rw [parseLoop_step _ _ _ _ _ hn]
    rcases hd with rfl | hd
    · simpa using ih refs
    · simp only [Bool.false_eq_true, if_false, Option.getD_some]
      split_ifs
      · exact ih refs
      · cases hm : refRegexp d with
        | none => simp [hm] at hd
        | some m => exact ih _

/-- C10: for every body that passes the first-five-bytes check and whose frames
decode without framing error up to and including a data frame whose payload `p`
is neither the service line nor a ref line, the frames before it being flush
frames, service lines or ref lines: `parseResponse` returns the error that
carries `p` and a nil map, whatever follows that frame. -/
theorem parseResponse_bad_ref_line (body p : Bytes) (hstart : startRegexp body = true)
    (hbad : FirstBadFrame body p) :
    parseResponse body = some (.error (Err.badRefLine p)) := by
  unfold parseResponse
  rw [hstart]
  exact parseLoop_firstBadFrame body p hbad []

set_option maxRecDepth 100000 in
/-- A service line, a flush frame, a ref line, then the frame of `"junk\n"` and
one more ref line: the error carries `"junk\n"`. -/
theorem parseResponse_bad_ref_line_witness :
    parseResponse (ascii "001e# service=git-upload-pack\n" ++ ascii "0000" ++
        ascii "003fd049f6c27a2244e12041955e262a404c7faba355 refs/heads/master\n" ++
        ascii "0009junk\n" ++
        ascii "003c2cb58b79488a98d2721cea644875a8dd0026b115 refs/tags/v1.0\n") =
      some (.error (Err.badRefLine (ascii "junk\n"))) :=
  parseResponse_bad_ref_line _ (ascii "junk\n") (by decide)
    (FirstBadFrame.data _
      (ascii "0000" ++ ascii "003fd049f6c27a2244e12041955e262a404c7faba355 refs/heads/master\n" ++
        ascii "0009junk\n" ++ ascii "003c2cb58b79488a98d2721cea644875a8dd0026b115 refs/tags/v1.0\n")
      serviceLine _ (by decide) (Or.inl rfl)
      (FirstBadFrame.flush _
        (ascii "003fd049f6c27a2244e12041955e262a404c7faba355 refs/heads/master\n" ++
          ascii "0009junk\n" ++ ascii "003c2cb58b79488a98d2721cea644875a8dd0026b115 refs/tags/v1.0\n")
        _ (by decide)
        (FirstBadFrame.data _
          (ascii "0009junk\n" ++ ascii "003c2cb58b79488a98d2721cea644875a8dd0026b115 refs/tags/v1.0\n")
          (ascii "d049f6c27a2244e12041955e262a404c7faba355 refs/heads/master\n") _
          (by decide) (Or.inr (by decide))
          (FirstBadFrame.here _
            (ascii "003c2cb58b79488a98d2721cea644875a8dd0026b115 refs/tags/v1.0\n") _
            (by decide) (by decide) (by decide)))))

/-! ## Lemmas: deleting from maps and reordering them -/

theorem mapGet_filter_key (p : Bytes → Bool) (m : RefMap) (k : Bytes) :
    mapGet (m.filter (fun e => p e.1)) k = if p k = true then mapGet m k else none := by
  induction m with
  | nil => simp [mapGet]
  | cons e m ih =>
    obtain ⟨k1, v1⟩ := e
    by_cases hp : p k1 = true
    · rw [List.filter_cons_of_pos (by simpa using hp)]
      by_cases hk : k1 = k
      · subst hk
        simp [mapGet, hp]
      · simp [mapGet, hk, ih]
    · rw [List.filter_cons_of_neg (by simpa using hp)]
      by_cases hk : k1 = k
      · subst hk
        simp [ih, hp]
      · simp [mapGet, hk, ih]

theorem mapGet_mapDelete (m : RefMap) (k k2 : Bytes) :
    mapGet (mapDelete m k) k2 = if k2 = k then none else mapGet m k2 := by
  have h := mapGet_filter_key (fun x => decide (x ≠ k)) m k2
  unfold mapDelete
  rw [h]
  by_cases hk : k2 = k <;> simp [hk]

theorem mapGet_isSome_of_mem (m : RefMap) (e : Bytes × Bytes) (h : e ∈ m) :
    (mapGet m e.1).isSome = true := by
  rw [← mem_mapKeys_iff]
  exact List.mem_map_of_mem Prod.fst h

theorem mem_of_mapGet (m : RefMap) (k v : Bytes) (h : mapGet m k = some v) : (k, v) ∈ m := by
  induction m with
  | nil => simp [mapGet] at h
  | cons e m ih =>
    obtain ⟨k1, v1⟩ := e
    by_cases hk : k1 = k
    · subst hk
      simp only [mapGet, if_true, Option.some.injEq] at h
      subst h
      simp
    · simp only [mapGet, if_neg hk] at h
      exact List.mem_cons_of_mem _ (ih h)

theorem mapGet_of_mem (m : RefMap) (hnd : (mapKeys m).Nodup) (k v : Bytes) (h : (k, v) ∈ m) :
    mapGet m k = some v := by
  induction m with
  | nil => simp at h
  | cons e m ih =>
    obtain ⟨k1, v1⟩ := e
    have h1 : k1 ∉ mapKeys m ∧ (mapKeys m).Nodup := by simpa [mapKeys] using hnd
    rcases List.mem_cons.mp h with heq | hmem
    · simp only [Prod.mk.injEq] at heq
      obtain ⟨rfl, rfl⟩ := heq
      simp [mapGet]
    · have hne : k1 ≠ k := by
        intro e
        subst e
        exact h1.1 (List.mem_map_of_mem Prod.fst hmem)
      simp only [mapGet, if_neg hne]
      exact ih h1.2 hmem

theorem nodup_mapKeys_perm {l1 l2 : RefMap} (hp : l1.Perm l2) (hnd : (mapKeys l2).Nodup) :
    (mapKeys l1).Nodup :=
  ((hp.map Prod.fst).nodup_iff).mpr hnd

theorem mapGet_perm {l1 l2 : RefMap} (hp : l1.Perm l2) (hnd : (mapKeys l2).Nodup) (k : Bytes) :
    mapGet l1 k = mapGet l2 k := by
  have hnd1 := nodup_mapKeys_perm hp hnd
  cases h1 : mapGet l1 k with
  | some v =>
    exact (mapGet_of_mem l2 hnd k v (hp.subset (mem_of_mapGet l1 k v h1))).symm
  | none =>
    cases h2 : mapGet l2 k with
    | none => rfl
    | some v =>
      have := mapGet_of_mem l1 hnd1 k v (hp.symm.subset (mem_of_mapGet l2 k v h2))
      rw [h1] at this
      exact this

theorem mem_mapKeys_perm {l1 l2 : RefMap} (hp : l1.Perm l2) (k : Bytes) :
    k ∈ mapKeys l1 ↔ k ∈ mapKeys l2 :=
  (hp.map Prod.fst).mem_iff

theorem nodup_mapKeys_filter (p : Bytes × Bytes → Bool) (m : RefMap) (hnd : (mapKeys m).Nodup) :
    (mapKeys (m.filter p)).Nodup :=
  List.Nodup.sublist ((List.filter_sublist m).map Prod.fst) hnd

/-! ## Lemmas: the diff loop of `gitcmp` -/

theorem diffBody_none (s : DiffState) (e : Bytes × Bytes) (h : mapGet s.refs2 e.1 = none) :
    diffBody s e = s := by
  unfold diffBody
  simp [h]

theorem diffBody_some (s : DiffState) (e : Bytes × Bytes) (hash2 : Bytes)
    (h : mapGet s.refs2 e.1 = some hash2) :
    diffBody s e =
      { out := s.out ++ (diffLine s.refs2 e).toList, refs1 := mapDelete s.refs1 e.1,
        refs2 := mapDelete s.refs2 e.1, ok := s.ok } := by
  unfold diffBody diffLine
  by_cases hne : e.2 = hash2 <;> simp [h, hne]

theorem foldl_diffBody (l : RefMap) (hnd : (mapKeys l).Nodup) : ∀ s : DiffState,
    l.foldl diffBody s =
      { out := s.out ++ l.filterMap (diffLine s.refs2),
        refs1 := s.refs1.filter
          (fun e => !(decide (e.1 ∈ mapKeys l) && (mapGet s.refs2 e.1).isSome)),
        refs2 := s.refs2.filter (fun e => decide (e.1 ∉ mapKeys l)),
        ok := s.ok } := by
  induction l with
  | nil => intro s; simp [mapKeys]
  | cons e l ih =>
    intro s
    have h1 : e.1 ∉ mapKeys l ∧ (mapKeys l).Nodup := by simpa [mapKeys] using hnd
    rw [List.foldl_cons]
    cases hg : mapGet s.refs2 e.1 with
    | none =>
      rw [diffBody_none s e hg, ih h1.2 s]
      have hl : diffLine s.refs2 e = none := by simp [diffLine, hg]
      congr 1
      · rw [List.filterMap_cons_none hl]
      · apply List.filter_congr
        intro x _
        by_cases hx : x.1 = e.1
        · simp [hx, hg, mapKeys]
        · have hxb : (x.1 == e.1) = false := by simpa using hx
          simp [hx, hxb, mapKeys]
      · apply List.filter_congr
        intro x hxm
        have hx : x.1 ≠ e.1 := by
          intro hx
          have := mapGet_isSome_of_mem _ x hxm
          rw [hx, hg] at this
          simp at this
        have hxb : (x.1 == e.1) = false := by simpa using hx
        simp [hx, hxb, mapKeys]
    | some hash2 =>
      rw [diffBody_some s e hash2 hg, ih h1.2]
      have hcongr : l.filterMap (diffLine (mapDelete s.refs2 e.1)) =
          l.filterMap (diffLine s.refs2) := by
        apply List.filterMap_congr
        intro x hx
        have hne : x.1 ≠ e.1 := by
          intro heq
          exact h1.1 (heq ▸ List.mem_map_of_mem Prod.fst hx)
        simp [diffLine, mapGet_mapDelete, hne]
      congr 1
      · simp only [hcongr, List.append_assoc]
        congr 1
        cases hl : diffLine s.refs2 e with
        | none => rw [List.filterMap_cons_none hl]; rfl
        | some x => rw [List.filterMap_cons_some hl]; rfl
      · have e1 : ∀ P : Bytes × Bytes → Bool, (mapDelete s.refs1 e.1).filter P =
            s.refs1.filter (fun a => P a && decide (a.1 ≠ e.1)) := by
          intro P
          unfold mapDelete
          rw [List.filter_filter]
        rw [e1]
        apply List.filter_congr
        intro x _
        by_cases hx : x.1 = e.1
        · simp [hx, hg, mapKeys]
        · have hxb : (x.1 == e.1) = false := by simpa using hx
          simp [hx, hxb, mapKeys, mapGet_mapDelete]
      · have e2 : ∀ P : Bytes × Bytes → Bool, (mapDelete s.refs2 e.1).filter P =
            s.refs2.filter (fun a => P a && decide (a.1 ≠ e.1)) := by
          intro P
          unfold mapDelete
          rw [List.filter_filter]
        rw [e2]
        apply List.filter_congr
        intro x _
        by_cases hx : x.1 = e.1
        · simp [hx, mapKeys]
        · have hxb : (x.1 == e.1) = false := by simpa using hx
          simp [hx, hxb, mapKeys]

theorem filter_ref_filterMap (g : Bytes × Bytes → Option Line)
    (hg : ∀ e x, g e = some x → x.ref = e.1) (name : Bytes) (l : RefMap)
    (hnd : (mapKeys l).Nodup) :
    (l.filterMap g).filter (fun x => decide (x.ref = name)) =
      match mapGet l name with
      | some a => (g (name, a)).toList
      | none => [] := by
  induction l with
  | nil => simp [mapGet]
  | cons e l ih =>
    obtain ⟨k, v⟩ := e
    have h1 : k ∉ mapKeys l ∧ (mapKeys l).Nodup := by simpa [mapKeys] using hnd
    have ih1 := ih h1.2
    by_cases hk : k = name
    · subst hk
      have hnone : mapGet l k = none := by
        cases hm : mapGet l k with
        | none => rfl
        | some a =>
          exfalso
          apply h1.1
          rw [mem_mapKeys_iff, hm]
          rfl
      rw [hnone] at ih1
      simp only [mapGet, if_true]
      cases hgv : g (k, v) with
      | none => rw [List.filterMap_cons_none hgv, ih1]; rfl
      | some x =>
        have hr : x.ref = k := hg _ _ hgv
        rw [List.filterMap_cons_some hgv, List.filter_cons_of_pos (by simpa using hr), ih1]
        rfl
    · simp only [mapGet, if_neg hk]
      cases hgv : g (k, v) with
      | none => rw [List.filterMap_cons_none hgv, ih1]
      | some x =>
        have hr : x.ref = k := hg _ _ hgv
        have hr2 : ¬ x.ref = name := by rw [hr]; exact hk
        rw [List.filterMap_cons_some hgv, List.filter_cons_of_neg (by simpa using hr2), ih1]

theorem gitcmp_out (o1 o2 o3 : RangeOrder) (repo1 repo2 : Bytes) (A B : RefMap)
    (hA : (mapKeys A).Nodup) :
    (gitcmp o1 o2 o3 repo1 repo2 A B).1 =
      (o1.ord A).filterMap (diffLine B) ++
        only o2 repo1 (A.filter
          (fun e => !(decide (e.1 ∈ mapKeys (o1.ord A)) && (mapGet B e.1).isSome))) ++
        only o3 repo2 (B.filter (fun e => decide (e.1 ∉ mapKeys (o1.ord A)))) := by
  unfold gitcmp
  simp only []
  rw [foldl_diffBody _ (nodup_mapKeys_perm (o1.perm A) hA)]
  simp

theorem filter_ref_only (o : RangeOrder) (u name : Bytes) (m : RefMap)
    (hnd : (mapKeys m).Nodup) :
    (only o u m).filter (fun x => decide (x.ref = name)) =
      match mapGet m name with
      | some _ => [Line.onlyIn u name]
      | none => [] := by
  have h := filter_ref_filterMap (fun e => some (Line.onlyIn u e.1))
    (by intro e x hx; simp only [Option.some.injEq] at hx; subst hx; rfl) name (o.ord m)
    (nodup_mapKeys_perm (o.perm m) hnd)
  have hm : only o u m = (o.ord m).filterMap (fun e => some (Line.onlyIn u e.1)) := by
    unfold only
    induction o.ord m with
    | nil => rfl
    | cons e l ih =>
      rw [List.map_cons, ih]
      exact (List.filterMap_cons_some (f := fun e => some (Line.onlyIn u e.1)) (l := l) rfl).symm
  rw [hm, h, mapGet_perm (o.perm m) hnd]
  cases mapGet m name <;> rfl

/-! ## The diff of `gitcmp` reports every difference once -/

/-- C5: for any two ref maps `A` and `B` and any iteration orders, the lines
that the comparison prints about a ref name are: one `differs` line with the
hash of `A` first and the hash of `B` second when the name is in both maps with
different hashes; no line when it is in both with equal hashes; one `Only in`
line with the first URL when it is only in `A`; one `Only in` line with the
second URL when it is only in `B`; and no line when it is in neither. -/
theorem gitcmp_diff_totality (o1 o2 o3 : RangeOrder) (repo1 repo2 : Bytes) (A B : RefMap)
    (hA : (mapKeys A).Nodup) (hB : (mapKeys B).Nodup) (name : Bytes) :
    (gitcmp o1 o2 o3 repo1 repo2 A B).1.filter (fun x => decide (x.ref = name)) =
      match mapGet A name, mapGet B name with
      | some a, some b => if a ≠ b then [Line.differs name a b] else []
      | some _, none => [Line.onlyIn repo1 name]
      | none, some _ => [Line.onlyIn repo2 name]
      | none, none => [] := by
  have hL := nodup_mapKeys_perm (o1.perm A) hA
  have hmem : ∀ k, decide (k ∈ mapKeys (o1.ord A)) = (mapGet A k).isSome := by
    intro k
    rw [Bool.eq_iff_iff, decide_eq_true_iff, mem_mapKeys_perm (o1.perm A), mem_mapKeys_iff]
  have h1 := filter_ref_filterMap (diffLine B)
    (by
      intro e x hx
      unfold diffLine at hx
      split at hx
      · split_ifs at hx
        simp only [Option.some.injEq] at hx
        subst hx
        rfl
      · simp at hx) name (o1.ord A) hL
  rw [mapGet_perm (o1.perm A) hA] at h1
  have h2 := filter_ref_only o2 repo1 name
    (A.filter (fun e => !(decide (e.1 ∈ mapKeys (o1.ord A)) && (mapGet B e.1).isSome)))
    (nodup_mapKeys_filter _ A hA)
  rw [mapGet_filter_key
    (fun k => !(decide (k ∈ mapKeys (o1.ord A)) && (mapGet B k).isSome)) A name] at h2
  have h3 := filter_ref_only o3 repo2 name
    (B.filter (fun e => decide (e.1 ∉ mapKeys (o1.ord A)))) (nodup_mapKeys_filter _ B hB)
  rw [mapGet_filter_key (fun k => decide (k ∉ mapKeys (o1.ord A))) B name] at h3
  rw [gitcmp_out o1 o2 o3 repo1 repo2 A B hA, List.filter_append, List.filter_append, h1, h2, h3]
  have hn := hmem name
  cases ha : mapGet A name with
  | none =>
    rw [ha] at hn
    have hn2 : name ∉ mapKeys (o1.ord A) := by simpa using hn
    cases hb : mapGet B name <;> simp [hn2]
  | some a =>
    rw [ha] at hn
    have hn2 : name ∈ mapKeys (o1.ord A) := by simpa using hn
    cases hb : mapGet B name with
    | none => simp [hn2, diffLine, hb]
    | some b =>
      by_cases hab : a = b <;> simp [hn2, diffLine, hb, hab]

set_option maxRecDepth 100000 in
/-- Four refs, one of each kind, visited in different orders: `c` is in both
maps with different hashes and is reported by exactly one `differs` line. -/
theorem gitcmp_diff_totality_witness :
    gitcmp RangeOrder.reversed RangeOrder.listed RangeOrder.reversed (ascii "u1") (ascii "u2")
        [(ascii "a", ascii "1"), (ascii "b", ascii "2"), (ascii "c", ascii "3")]
        [(ascii "b", ascii "2"), (ascii "c", ascii "4"), (ascii "d", ascii "5")] =
      ([Line.differs (ascii "c") (ascii "3") (ascii "4"), Line.onlyIn (ascii "u1") (ascii "a"),
        Line.onlyIn (ascii "u2") (ascii "d")], 0) ∧
    (gitcmp RangeOrder.reversed RangeOrder.listed RangeOrder.reversed (ascii "u1") (ascii "u2")
        [(ascii "a", ascii "1"), (ascii "b", ascii "2"), (ascii "c", ascii "3")]
        [(ascii "b", ascii "2"), (ascii "c", ascii "4"), (ascii "d", ascii "5")]).1.filter
        (fun x => decide (x.ref = ascii "c")) =
      [Line.differs (ascii "c") (ascii "3") (ascii "4")] :=
  ⟨by decide,
   gitcmp_diff_totality RangeOrder.reversed RangeOrder.listed RangeOrder.reversed (ascii "u1")
     (ascii "u2") [(ascii "a", ascii "1"), (ascii "b", ascii "2"), (ascii "c", ascii "3")]
     [(ascii "b", ascii "2"), (ascii "c", ascii "4"), (ascii "d", ascii "5")]
     (by decide) (by decide) (ascii "c")⟩

/-! ## The exit code of `gitcmp` -/

theorem foldl_diffBody_ok (l : RefMap) : ∀ s : DiffState, (l.foldl diffBody s).ok = s.ok := by
  induction l with
  | nil => intro s; rfl
  | cons e l ih =>
    intro s
    rw [List.foldl_cons, ih]
    cases hg : mapGet s.refs2 e.1 with
    | none => rw [diffBody_none s e hg]
    | some hash2 => rw [diffBody_some s e hash2 hg]

/-- The variable `ok` of `main` is still true after the loop, so `main` returns
and the exit code is 0, for all maps. -/
theorem gitcmp_exit_zero (o1 o2 o3 : RangeOrder) (repo1 repo2 : Bytes) (A B : RefMap) :
    (gitcmp o1 o2 o3 repo1 repo2 A B).2 = 0 := by
  unfold gitcmp
  simp only []
  rw [foldl_diffBody_ok]
  rfl

theorem filterMap_diffLine_eq_nil (L A B : RefMap) (hp : L.Perm A) (hA : (mapKeys A).Nodup)
    (h : ∀ k a b, mapGet A k = some a → mapGet B k = some b → a = b) :
    L.filterMap (diffLine B) = [] := by
  rw [List.filterMap_eq_nil_iff]
  intro e he
  obtain ⟨k, a⟩ := e
  have ha : mapGet A k = some a := mapGet_of_mem A hA k a (hp.subset he)
  unfold diffLine
  cases hb : mapGet B k with
  | none => rfl
  | some b => simp [h k a b ha hb]

set_option maxRecDepth 100000 in
/-- C4 as stated fails: `refs/heads/topic` is present in the first map only, an
`Only in` line is printed, and the exit code is 0, not 1. -/
theorem gitcmp_exit_zero_with_exclusive_ref :
    mapGet [(ascii "refs/heads/topic", ascii "d049f6c27a2244e12041955e262a404c7faba355")]
        (ascii "refs/heads/topic") = some (ascii "d049f6c27a2244e12041955e262a404c7faba355") ∧
    mapGet [] (ascii "refs/heads/topic") = none ∧
    gitcmp RangeOrder.listed RangeOrder.listed RangeOrder.listed (ascii "u1") (ascii "u2")
        [(ascii "refs/heads/topic", ascii "d049f6c27a2244e12041955e262a404c7faba355")] [] =
      ([Line.onlyIn (ascii "u1") (ascii "refs/heads/topic")], 0) := by
  decide

/-! ## When `nextPktLine` returns `io.EOF` -/

theorem Hex4_of_parseUint16 (a b c d n : Nat) (h : parseUint16 [a, b, c, d] = .ok n) :
    Hex4 [a, b, c, d] n := by
  rw [parseUint16_four] at h
  cases ha : hexValue a with
  | none => simp [ha] at h
  | some va =>
    cases hb : hexValue b with
    | none => simp [ha, hb] at h
    | some vb =>
      cases hc : hexValue c with
      | none => simp [ha, hb, hc] at h
      | some vc =>
        cases hd : hexValue d with
        | none => simp [ha, hb, hc, hd] at h
        | some vd =>
          simp only [ha, hb, hc, hd, Except.ok.injEq] at h
          exact ⟨a, b, c, d, va, vb, vc, vd, rfl, ha, hb, hc, hd, h.symm⟩

theorem readFull_eof_iff (r : Bytes) (k : Nat) :
    (readFull r k).2.2 = some Err.EOF ↔ r = [] ∧ 0 < k := by
  unfold readFull
  by_cases hk : k = 0
  · simp [hk]
  · by_cases hr : r = []
    · subst hr
      have : ¬ k ≤ 0 := by omega
      simp [hk, this]
      omega
    · by_cases hle : k ≤ r.length <;> simp [hk, hr, hle]

/-- The function `nextPktLine` returns `io.EOF` in two cases: when the reader is
empty, and when the reader holds exactly a length field that declares at least
one payload byte. -/
theorem nextPktLine_eof_iff (r : Bytes) :
    (nextPktLine r).1.err = some Err.EOF ↔
      r = [] ∨ ∃ n, Hex4 r n ∧ 4 < n ∧ n ≤ 65520 := by
  match r with
  | [] =>
    rw [nextPktLine_short [] (by simp)]
    simp
  | [x] =>
    rw [nextPktLine_short _ (by simp)]
    simp only [List.cons_ne_nil, if_false, false_or]
    constructor
    · intro h; simp at h
    · rintro ⟨n, hn, -⟩; have := Hex4_length hn; simp at this
  | [x, y] =>
    rw [nextPktLine_short _ (by simp)]
    simp only [List.cons_ne_nil, if_false, false_or]
    constructor
    · intro h; simp at h
    · rintro ⟨n, hn, -⟩; have := Hex4_length hn; simp at this
  | [x, y, z] =>
    rw [nextPktLine_short _ (by simp)]
    simp only [List.cons_ne_nil, if_false, false_or]
    constructor
    · intro h; simp at h
    · rintro ⟨n, hn, -⟩; have := Hex4_length hn; simp at this
  | a :: b :: c :: d :: t =>
    simp only [List.cons_ne_nil, false_or]
    constructor
    · intro h
      unfold nextPktLine at h
      rw [readFull_four] at h
      simp only [] at h
      by_cases h1 : [a, b, c, d] = [48, 48, 48, 48]
      · rw [if_pos h1] at h
        simp at h
      · rw [if_neg h1] at h
        cases hp : parseUint16 [a, b, c, d] with
        | error e =>
          have hp2 := hp
          rw [parseUint16_four] at hp2
          rw [hp] at h
          have he : e = Err.numSyntaxErr [a, b, c, d] := by
            revert hp2
            split <;> intro hp2 <;> simp at hp2
            exact hp2.symm
          subst he
          simp at h
        | ok n =>
          rw [hp] at h
          simp only [] at h
          by_cases h2 : n < 4 ∨ n > 65520
          · rw [if_pos h2] at h
            simp at h
          · rw [if_neg h2] at h
            have h3 : (readFull t (n - 4)).2.2 = some Err.EOF := h
            rw [readFull_eof_iff] at h3
            obtain ⟨rfl, hpos⟩ := h3
            exact ⟨n, Hex4_of_parseUint16 a b c d n hp, by omega, by omega⟩
    · rintro ⟨n, hn, h4, hmax⟩
      have hlen := Hex4_length hn
      have ht : t = [] := by
        simp only [List.length_cons] at hlen
        exact List.length_eq_zero.mp (by omega)
      subst ht
      have hne : [a, b, c, d] ≠ [48, 48, 48, 48] := by
        intro e
        rw [e] at hn
        have := Hex4_zeros hn
        omega
      unfold nextPktLine
      rw [readFull_four]
      simp only []
      rw [if_neg hne, parseUint16_of_Hex4 hn]
      simp only []
      rw [if_neg (by omega)]
      show (readFull [] (n - 4)).2.2 = some Err.EOF
      rw [readFull_eof_iff]
      exact ⟨rfl, by omega⟩

/-! ## The language of `refRegexp` -/

theorem matchDotStarNl_iff (l : Bytes) :
    matchDotStarNl l = true ↔ ∃ caps, l = caps ++ [10] ∧ 10 ∉ caps := by
  constructor
  · intro h
    induction l with
    | nil => simp [matchDotStarNl] at h
    | cons c cs ih =>
      by_cases hc : c = 10
      · subst hc
        simp only [matchDotStarNl, if_true, decide_eq_true_eq] at h
        subst h
        exact ⟨[], rfl, by simp⟩
      · simp only [matchDotStarNl, if_neg hc] at h
        obtain ⟨caps, rfl, hn⟩ := ih h
        refine ⟨c :: caps, rfl, ?_⟩
        simp only [List.mem_cons, not_or]
        exact ⟨fun e => hc e.symm, hn⟩
  · rintro ⟨caps, rfl, hn⟩
    exact matchDotStarNl_append caps hn

theorem matchRefTail_iff (l : Bytes) :
    matchRefTail l = true ↔
      ∃ opt, l = opt ++ [10] ∧ (opt = [] ∨ ∃ caps, opt = 0 :: caps ∧ 10 ∉ caps) := by
  constructor
  · intro h
    match l, h with
    | c :: cs, h =>
      by_cases hc : c = 10
      · subst hc
        simp only [matchRefTail, if_true, decide_eq_true_eq] at h
        subst h
        exact ⟨[], rfl, Or.inl rfl⟩
      · by_cases h0 : c = 0
        · subst h0
          simp only [matchRefTail, if_neg hc, if_true] at h
          obtain ⟨caps, rfl, hn⟩ := (matchDotStarNl_iff cs).mp h
          exact ⟨0 :: caps, rfl, Or.inr ⟨caps, rfl, hn⟩⟩
        · simp [matchRefTail, hc, h0] at h
  · rintro ⟨opt, rfl, rfl | ⟨caps, rfl, hn⟩⟩
    · simp [matchRefTail]
    · simp [matchRefTail, matchDotStarNl_append caps hn]

/-- The strings that `refRegexp` matches, with the two submatches it returns:
40 lowercase hexadecimal digits, a space, a non-empty printable name, optionally
a NUL followed by bytes other than the newline, and a newline at the end. -/
theorem refRegexp_eq_some_iff (ds h name : Bytes) :
    refRegexp ds = some (h, name) ↔
      ∃ opt, ds = h ++ [32] ++ name ++ opt ++ [10] ∧ h.length = 40 ∧
        (∀ c ∈ h, isLowerHex c = true) ∧ name ≠ [] ∧ (∀ c ∈ name, isPrint c = true) ∧
        (opt = [] ∨ ∃ caps, opt = 0 :: caps ∧ 10 ∉ caps) := by
  constructor
  · intro hm
    unfold refRegexp at hm
    simp only [] at hm
    by_cases h1 : (ds.take 40).length = 40 ∧ (ds.take 40).all isLowerHex = true
    · rw [if_pos h1] at hm
      have hsplit := List.take_append_drop 40 ds
      cases hd : ds.drop 40 with
      | nil => rw [hd] at hm; simp at hm
      | cons c r1 =>
        rw [hd] at hm hsplit
        simp only [] at hm
        by_cases hc : c = 32
        · subst hc
          rw [if_pos rfl] at hm
          by_cases h2 : r1.takeWhile isPrint ≠ [] ∧ matchRefTail (r1.dropWhile isPrint) = true
          · rw [if_pos h2] at hm
            simp only [Option.some.injEq, Prod.mk.injEq] at hm
            obtain ⟨hh, hn⟩ := hm
            obtain ⟨opt, hopt, hcase⟩ := (matchRefTail_iff _).mp h2.2
            have hr1 := List.takeWhile_append_dropWhile isPrint r1
            refine ⟨opt, ?_, ?_, ?_, ?_, ?_, hcase⟩
            · rw [← hsplit, ← hr1, hopt, hh, hn]
              simp
            · rw [← hh]; exact h1.1
            · rw [← hh]; exact List.all_eq_true.mp h1.2
            · rw [← hn]; exact h2.1
            · rw [← hn]; intro x hx; exact List.mem_takeWhile_imp hx
          · rw [if_neg h2] at hm
            simp at hm
        · rw [if_neg hc] at hm
          simp at hm
    · rw [if_neg h1] at hm
      simp at hm
  · rintro ⟨opt, rfl, h1, h2, h3, h4, h5⟩
    exact refRegexp_line h name opt h1 h2 h3 h4 h5

/-! ## The URL that `RemoteRefs` requests -/

theorem strip_append_slashes (u : Bytes) :
    stripSlashes u ++ List.replicate (trailingSlashes u) 47 = u := by
  unfold stripSlashes trailingSlashes
  have h1 := List.takeWhile_append_dropWhile (fun c => c == 47) u.reverse
  have h2 : List.takeWhile (fun c => c == 47) u.reverse =
      List.replicate (List.takeWhile (fun c => c == 47) u.reverse).length 47 := by
    apply List.eq_replicate_of_mem
    intro b hb
    simpa using List.mem_takeWhile_imp hb
  have h3 : u = (List.dropWhile (fun c => c == 47) u.reverse).reverse ++
      (List.takeWhile (fun c => c == 47) u.reverse).reverse := by
    rw [← List.reverse_append, h1, List.reverse_reverse]
  rw [h2, List.reverse_replicate] at h3
  exact h3.symm

theorem trailingSlashes_pos_iff (u : Bytes) : 0 < trailingSlashes u ↔ u.getLast? = some 47 := by
  unfold trailingSlashes
  rw [List.getLast?_eq_head?_reverse]
  cases u.reverse with
  | nil => simp
  | cons c cs =>
    by_cases hc : c = 47
    · simp [List.takeWhile, hc]
    · have hb : (c == 47) = false := by simpa using hc
      simp [List.takeWhile, hc, hb]

/-- C16, amended: the URL that `RemoteRefs` requests is the base URL, that is
`repoURL` without its trailing slashes, followed by one slash when `repoURL`
ends in no slash and by all the slashes of `repoURL` otherwise, followed by
`"info/refs?service=git-upload-pack"`; it is the only URL at which `RemoteRefs`
uses the client. -/
theorem requestURL_eq (repoURL : Bytes) :
    requestURL repoURL =
      stripSlashes repoURL ++ List.replicate (max 1 (trailingSlashes repoURL)) 47 ++
        ascii "info/refs?service=git-upload-pack" ∧
    ∀ get1 get2 : Bytes → Except Err HTTPResponse,
      get1 (requestURL repoURL) = get2 (requestURL repoURL) →
      RemoteRefs get1 repoURL = RemoteRefs get2 repoURL := by
  refine ⟨?_, fun get1 get2 h => by unfold RemoteRefs; rw [h]⟩
  have h1 := strip_append_slashes repoURL
  have h2 := trailingSlashes_pos_iff repoURL
  unfold requestURL
  by_cases hk : 0 < trailingSlashes repoURL
  · rw [if_pos (h2.mp hk), Nat.max_eq_right hk, h1]
  · have hz : trailingSlashes repoURL = 0 := by omega
    rw [if_neg (fun h => hk (h2.mpr h))]
    rw [hz] at h1 ⊢
    simp only [List.replicate_zero, List.append_nil] at h1
    rw [h1]
    rfl

set_option maxRecDepth 100000 in
/-- C16 as stated fails: for a `repoURL` that ends in two slashes the requested
URL keeps both of them, and is not the base URL with exactly one slash followed
by the query path. -/
theorem requestURL_keeps_several_slashes :
    requestURL (ascii "https://example.com/repo.git//") =
      ascii "https://example.com/repo.git//info/refs?service=git-upload-pack" ∧
    stripSlashes (ascii "https://example.com/repo.git//") = ascii "https://example.com/repo.git" ∧
    requestURL (ascii "https://example.com/repo.git//") ≠
      stripSlashes (ascii "https://example.com/repo.git//") ++ ascii "/" ++
        ascii "info/refs?service=git-upload-pack" := by
  decide

/-! ## The checks of `RemoteRefs` on the response -/

theorem parseLoop_error_kind (f : Nat) : ∀ (r : Bytes) (refs : RefMap) (e : Err),
    parseLoop f r refs = some (.error e) →
      (∃ e1, e = Err.badPktLine e1) ∨ (∃ ds, e = Err.badRefLine ds) := by
  induction f with
  | zero => intro r refs e h; simp [parseLoop] at h
  | succ n ih =>
    intro r refs e h
    rw [parseLoop] at h
    rcases hnp : nextPktLine r with ⟨⟨data, flush, err⟩, br1⟩
    rw [hnp] at h
    cases err with
    | some e1 =>
      cases e1 <;> simp at h <;> exact Or.inl ⟨_, h.symm⟩
    | none =>
      simp only [] at h
      split_ifs at h
      · exact ih _ _ _ h
      · split at h
        · simp only [Option.some.injEq, Except.error.injEq] at h
          exact Or.inr ⟨_, h.symm⟩
        · exact ih _ _ _ h
      · exact ih _ _ _ h

theorem parseResponse_error_kind (body : Bytes) (e : Err)
    (h : parseResponse body = some (.error e)) :
    (∃ b, e = Err.badFirstFive b) ∨ (∃ e1, e = Err.badPktLine e1) ∨ (∃ ds, e = Err.badRefLine ds) := by
  unfold parseResponse at h
  split_ifs at h
  · simp only [Option.some.injEq, Except.error.injEq] at h
    exact Or.inl ⟨_, h.symm⟩
  · exact Or.inr (parseLoop_error_kind _ _ _ _ h)

/-- C17: for every response that was received and whose body was read without
error, `RemoteRefs` returns the bad status error when the status code is not
200, whatever the content type; the bad content type error when the status
code is 200 and the content type is not exactly
`"application/x-git-upload-pack-advertisement"`; in both cases whatever the
body; and it returns the result of `parseResponse` on the body if and only if
the status code is 200 and the content type is exactly that value. -/
theorem RemoteRefs_checks (get : Bytes → Except Err HTTPResponse) (repoURL : Bytes)
    (resp : HTTPResponse) (body : Bytes) (hget : get (requestURL repoURL) = .ok resp)
    (hbody : resp.body = .ok body) :
    (resp.statusCode ≠ 200 →
      RemoteRefs get repoURL = some (.error (Err.badStatus resp.statusCode))) ∧
    (resp.statusCode = 200 →
      resp.contentType ≠ ascii "application/x-git-upload-pack-advertisement" →
      RemoteRefs get repoURL = some (.error (Err.badContentType resp.contentType))) ∧
    (RemoteRefs get repoURL = parseResponse body ↔
      resp.statusCode = 200 ∧
        resp.contentType = ascii "application/x-git-upload-pack-advertisement") := by
  have hr : RemoteRefs get repoURL =
      if resp.statusCode ≠ 200 then some (.error (Err.badStatus resp.statusCode))
      else if resp.contentType ≠ ascii "application/x-git-upload-pack-advertisement" then
        some (.error (Err.badContentType resp.contentType))
      else parseResponse body := by
    unfold RemoteRefs
    rw [hget]
    simp only []
    rw [hbody]
  refine ⟨?_, ?_, ?_⟩
  · intro hs
    rw [hr, if_pos hs]
  · intro hs hc
    rw [hr, if_neg (by simpa using hs), if_pos hc]
  · constructor
    · intro h
      rw [hr] at h
      by_cases hs : resp.statusCode ≠ 200
      · rw [if_pos hs] at h
        rcases parseResponse_error_kind body _ h.symm with ⟨b, hb⟩ | ⟨e1, hb⟩ | ⟨ds, hb⟩ <;>
          simp at hb
      · rw [if_neg hs] at h
        by_cases hc : resp.contentType ≠ ascii "application/x-git-upload-pack-advertisement"
        · rw [if_pos hc] at h
          rcases parseResponse_error_kind body _ h.symm with ⟨b, hb⟩ | ⟨e1, hb⟩ | ⟨ds, hb⟩ <;>
            simp at hb
        · exact ⟨by simpa using hs, by simpa using hc⟩
    · rintro ⟨hs, hc⟩
      rw [hr, if_neg (by simpa using hs), if_neg (by simpa using hc)]

/-- A response with status 404 and the right content type: the error is the
bad status error, and the result is not that of `parseResponse` on the body. -/
theorem RemoteRefs_checks_witness :
    RemoteRefs
        (fun _ => .ok ⟨404, ascii "application/x-git-upload-pack-advertisement", .ok sampleResp⟩)
        (ascii "https://example.com/repo.git") =
      some (.error (Err.badStatus 404)) :=
  (RemoteRefs_checks
    (fun _ => .ok ⟨404, ascii "application/x-git-upload-pack-advertisement", .ok sampleResp⟩)
    (ascii "https://example.com/repo.git")
    ⟨404, ascii "application/x-git-upload-pack-advertisement", .ok sampleResp⟩ sampleResp
    rfl rfl).1 (by decide)

/-! ## The results of `nextPktLine` without error -/

theorem readFull_ok (t : Bytes) (k : Nat) (h : (readFull t k).2.2 = none) :
    (readFull t k).1.length = k ∧ (readFull t k).1 ++ (readFull t k).2.1 = t := by
  unfold readFull at h ⊢
  by_cases hk : k = 0
  · simp [hk]
  · by_cases hle : k ≤ t.length
    · simp [hk, hle]
    · by_cases ht : t = [] <;> simp [hk, hle, ht] at h

theorem nextPktLine_ok_cases (r r1 : Bytes) (data : Option Bytes) (flush : Bool)
    (h : nextPktLine r = (⟨data, flush, none⟩, r1)) :
    (flush = true ∧ data = none ∧ r = 48 :: 48 :: 48 :: 48 :: r1) ∨
    (flush = false ∧ ∃ nb p, data = some p ∧ r = nb ++ p ++ r1 ∧ Hex4 nb (p.length + 4) ∧
      p.length ≤ 65516) := by
  match r, h with
  | [], h => rw [nextPktLine_short [] (by simp)] at h; simp at h
  | [_], h => rw [nextPktLine_short _ (by simp)] at h; simp at h
  | [_, _], h => rw [nextPktLine_short _ (by simp)] at h; simp at h
  | [_, _, _], h => rw [nextPktLine_short _ (by simp)] at h; simp at h
  | a :: b :: c :: d :: t, h =>
    unfold nextPktLine at h
    rw [readFull_four] at h
    simp only [] at h
    by_cases h1 : [a, b, c, d] = [48, 48, 48, 48]
    · rw [if_pos h1] at h
      simp only [Prod.mk.injEq, PktResult.mk.injEq] at h
      obtain ⟨⟨hd, hf, -⟩, ht⟩ := h
      simp only [List.cons.injEq, and_true] at h1
      obtain ⟨rfl, rfl, rfl, rfl⟩ := h1
      exact Or.inl ⟨hf.symm, hd.symm, by rw [ht]⟩
    · rw [if_neg h1] at h
      cases hp : parseUint16 [a, b, c, d] with
      | error e => rw [hp] at h; simp at h
      | ok n =>
        rw [hp] at h
        simp only [] at h
        by_cases h2 : n < 4 ∨ n > 65520
        · rw [if_pos h2] at h
          simp at h
        · rw [if_neg h2] at h
          simp only [Prod.mk.injEq, PktResult.mk.injEq] at h
          obtain ⟨⟨hd, hf, he⟩, ht⟩ := h
          obtain ⟨hlen, happ⟩ := readFull_ok t (n - 4) he
          have hx := Hex4_of_parseUint16 a b c d n hp
          refine Or.inr ⟨hf.symm, [a, b, c, d], (readFull t (n - 4)).1, ?_, ?_, ?_, ?_⟩
          · rw [← hd, hlen]
            simp
          · rw [← ht, List.append_assoc, happ]
            rfl
          · rw [hlen]
            have : n - 4 + 4 = n := by omega
            rw [this]
            exact hx
          · rw [hlen]
            omega

/-- C19: for every reader on which `nextPktLine` returns a nil error, either
flush is true and data is the nil slice, or flush is false and data is not the
nil slice; for the length field `"0004"` data is the empty slice that `make`
returns, which is not nil. -/
theorem nextPktLine_data_xor_flush (r : Bytes) (h : (nextPktLine r).1.err = none) :
    ((nextPktLine r).1.flush = true ∧ (nextPktLine r).1.data = none) ∨
    ((nextPktLine r).1.flush = false ∧ (nextPktLine r).1.data ≠ none) := by
  rcases hn : nextPktLine r with ⟨⟨data, flush, err⟩, r1⟩
  rw [hn] at h
  simp only [] at h
  subst h
  rcases nextPktLine_ok_cases r r1 data flush hn with ⟨hf, hd, -⟩ | ⟨hf, nb, p, hd, -⟩
  · exact Or.inl ⟨hf, hd⟩
  · exact Or.inr ⟨hf, by rw [hd]; simp⟩

/-- The test case `"0004"`: no error, no flush, and the empty slice as data. -/
theorem nextPktLine_data_xor_flush_witness :
    nextPktLine (ascii "0004") = (⟨some [], false, none⟩, []) ∧
    (((nextPktLine (ascii "0004")).1.flush = true ∧ (nextPktLine (ascii "0004")).1.data = none) ∨
      ((nextPktLine (ascii "0004")).1.flush = false ∧
        (nextPktLine (ascii "0004")).1.data ≠ none)) :=
  ⟨by decide, nextPktLine_data_xor_flush (ascii "0004") (by decide)⟩

/-! ## The refs that `parseResponse` returns -/

theorem mem_mapSet (m : RefMap) (k v : Bytes) (e : Bytes × Bytes) (h : e ∈ mapSet m k v) :
    e = (k, v) ∨ e ∈ m := by
  induction m with
  | nil => simpa [mapSet] using h
  | cons x m ih =>
    obtain ⟨k1, v1⟩ := x
    by_cases hk : k1 = k
    · simp only [mapSet, if_pos hk, List.mem_cons] at h
      rcases h with h | h
      · exact Or.inl h
      · exact Or.inr (List.mem_cons_of_mem _ h)
    · simp only [mapSet, if_neg hk, List.mem_cons] at h
      rcases h with h | h
      · exact Or.inr (by rw [h]; exact List.mem_cons_self _ _)
      · rcases ih h with h2 | h2
        · exact Or.inl h2
        · exact Or.inr (List.mem_cons_of_mem _ h2)

theorem parseLoop_invariant (P : Bytes × Bytes → Prop)
    (hP : ∀ ds h name, refRegexp ds = some (h, name) → P (name, h)) (f : Nat) :
    ∀ (r : Bytes) (refs m : RefMap), parseLoop f r refs = some (.ok m) →
      (∀ e ∈ refs, P e) → ∀ e ∈ m, P e := by
  induction f with
  | zero => intro r refs m h; simp [parseLoop] at h
  | succ n ih =>
    intro r refs m h hrefs
    rw [parseLoop] at h
    rcases hnp : nextPktLine r with ⟨⟨data, flush, err⟩, br1⟩
    rw [hnp] at h
    cases err with
    | some e1 =>
      cases e1 <;> simp at h
      subst h
      exact hrefs
    | none =>
      simp only [] at h
      split_ifs at h
      · exact ih _ _ _ h hrefs
      · split at h
        · simp at h
        · rename_i m1 m2 hm
          apply ih _ _ _ h
          intro e he
          rcases mem_mapSet _ _ _ _ he with rfl | he2
          · exact hP _ _ _ hm
          · exact hrefs e he2
      · exact ih _ _ _ h hrefs

/-- C11: for every body on which `parseResponse` returns no error, every value
of the returned map is exactly 40 characters long, each of them in `[0-9a-f]`,
and every key is a non-empty string of printable characters, none of which is
the NUL byte or the newline. -/
theorem parseResponse_ref_invariant (body : Bytes) (m : RefMap)
    (h : parseResponse body = some (.ok m)) :
    ∀ e ∈ m, e.2.length = 40 ∧ (∀ c ∈ e.2, IsLowerHexDigit c) ∧ e.1 ≠ [] ∧
      ∀ c ∈ e.1, IsPrintable c ∧ c ≠ 0 ∧ c ≠ 10 := by
  unfold parseResponse at h
  by_cases hs : (!startRegexp body) = true
  · rw [if_pos hs] at h
    simp at h
  · rw [if_neg hs] at h
    refine parseLoop_invariant _ ?_ _ _ _ _ h (by simp)
    intro ds hash name hm
    obtain ⟨opt, -, h1, h2, h3, h4, -⟩ := (refRegexp_eq_some_iff ds hash name).mp hm
    refine ⟨h1, fun c hc => (isLowerHex_iff c).mp (h2 c hc), h3, fun c hc => ?_⟩
    have hp := h4 c hc
    simp only [isPrint, Bool.and_eq_true, decide_eq_true_eq] at hp
    exact ⟨hp, by omega, by omega⟩

set_option maxRecDepth 100000 in
/-- The four refs that `parseResponse` returns for `sampleResp` satisfy the invariant. -/
theorem parseResponse_ref_invariant_witness :
    parseResponse sampleResp = some (.ok
      [(ascii "refs/heads/maint", ascii "95dcfa3633004da0049d3d0fa03f80589cbcaf31"),
        (ascii "refs/heads/master", ascii "d049f6c27a2244e12041955e262a404c7faba355"),
        (ascii "refs/tags/v1.0", ascii "2cb58b79488a98d2721cea644875a8dd0026b115"),
        (ascii "refs/tags/v1.0^\x7b\x7d", ascii "a3c2e2402b99163d1d59756e5f207ae21cccba4c")]) ∧
    ∀ e ∈ [(ascii "refs/heads/maint", ascii "95dcfa3633004da0049d3d0fa03f80589cbcaf31"),
        (ascii "refs/heads/master", ascii "d049f6c27a2244e12041955e262a404c7faba355"),
        (ascii "refs/tags/v1.0", ascii "2cb58b79488a98d2721cea644875a8dd0026b115"),
        (ascii "refs/tags/v1.0^\x7b\x7d", ascii "a3c2e2402b99163d1d59756e5f207ae21cccba4c")],
      e.2.length = 40 ∧ (∀ c ∈ e.2, IsLowerHexDigit c) ∧ e.1 ≠ [] ∧
        ∀ c ∈ e.1, IsPrintable c ∧ c ≠ 0 ∧ c ≠ 10 :=
  ⟨by decide, parseResponse_ref_invariant sampleResp _ (by decide)⟩

/-! ## The first frame of an accepted body -/

theorem nextPktLine_hash_first (rest : Bytes) :
    ∃ res r2 e, nextPktLine (35 :: rest) = (res, r2) ∧ res.err = some e ∧ e ≠ Err.EOF := by
  match rest with
  | [] => exact ⟨_, _, _, nextPktLine_short _ (by simp), rfl, by simp⟩
  | [_] => exact ⟨_, _, _, nextPktLine_short _ (by simp), rfl, by simp⟩
  | [_, _] => exact ⟨_, _, _, nextPktLine_short _ (by simp), rfl, by simp⟩
  | x :: y :: z :: t =>
    have hp : parseUint16 [35, x, y, z] = .error (Err.numSyntaxErr [35, x, y, z]) := by
      rw [parseUint16_four]
      have : hexValue 35 = none := by decide
      rw [this]
    refine ⟨⟨none, false, some (Err.numSyntaxErr [35, x, y, z])⟩, t, _, ?_, rfl, by simp⟩
    unfold nextPktLine
    rw [readFull_four]
    simp only []
    rw [if_neg (by simp), hp]

theorem refRegexp_hash_first (p : Bytes) : refRegexp (35 :: p) = none := by
  cases h : refRegexp (35 :: p) with
  | none => rfl
  | some x =>
    obtain ⟨hash, name⟩ := x
    obtain ⟨opt, he, h1, h2, -⟩ := (refRegexp_eq_some_iff _ hash name).mp h
    cases hash with
    | nil => simp at h1
    | cons c cs =>
      simp only [List.cons_append, List.cons.injEq] at he
      have := h2 c (by simp)
      rw [← he.1] at this
      simp [isLowerHex] at this

theorem lowerHex_thirty (a b c d : Nat) (h : Hex4 [a, b, c, d] 30)
    (hd : IsLowerHexDigit d) : [a, b, c, d] = [48, 48, 49, 101] := by
  obtain ⟨a1, b1, c1, d1, va, vb, vc, vd, he, hva, hvb, hvc, hvd, hn⟩ := h
  simp only [List.cons.injEq, and_true] at he
  obtain ⟨rfl, rfl, rfl, rfl⟩ := he
  have := hexValue_lt hva
  have := hexValue_lt hvb
  have := hexValue_lt hvc
  have := hexValue_lt hvd
  have e1 : va = 0 := by omega
  have e2 : vb = 0 := by omega
  have e3 : vc = 1 := by omega
  have e4 : vd = 14 := by omega
  subst e1 e2 e3 e4
  unfold IsLowerHexDigit at hd
  unfold hexValue at hva hvb hvc hvd
  have ea : a = 48 := by
    split_ifs at hva <;> simp at hva <;> omega
  have eb : b = 48 := by
    split_ifs at hvb <;> simp at hvb <;> omega
  have ec : c = 49 := by
    split_ifs at hvc <;> simp at hvc <;> omega
  have ed : d = 101 := by
    split_ifs at hvd <;> simp at hvd <;> omega
  rw [ea, eb, ec, ed]

theorem parseLoop_ok_first_frame (a b c d : Nat) (rest : Bytes) (refs m : RefMap)
    (ha : IsLowerHexDigit a) (hb : IsLowerHexDigit b) (hc : IsLowerHexDigit c)
    (hd : IsLowerHexDigit d)
    (h : parseLoop ((a :: b :: c :: d :: 35 :: rest).length + 1) (a :: b :: c :: d :: 35 :: rest)
      refs = some (.ok m)) :
    ∃ r1, a :: b :: c :: d :: 35 :: rest = [48, 48, 49, 101] ++ serviceLine ++ r1 := by
  rcases hnp : nextPktLine (a :: b :: c :: d :: 35 :: rest) with ⟨⟨data, flush, err⟩, r1⟩
  cases err with
  | some e =>
    rw [parseLoop_error _ _ _ _ _ _ _ hnp] at h
    by_cases he : e = Err.EOF
    · subst he
      have h2 := (nextPktLine_eof_iff (a :: b :: c :: d :: 35 :: rest)).mp (by rw [hnp])
      rcases h2 with h2 | ⟨n, hn, -⟩
      · simp at h2
      · have := Hex4_length hn
        simp at this
    · rw [if_neg he] at h
      simp at h
  | none =>
    rw [parseLoop_step _ _ _ _ _ hnp] at h
    rcases nextPktLine_ok_cases _ _ _ _ hnp with ⟨hf, -, hr⟩ | ⟨hf, nb, p, hdat, hr, hx, hL⟩
    · subst hf
      simp only [List.cons.injEq] at hr
      obtain ⟨-, -, -, -, hr1⟩ := hr
      rw [if_pos rfl, ← hr1] at h
      obtain ⟨res, r2, e, hn2, he, hne⟩ := nextPktLine_hash_first rest
      obtain ⟨d2, f2, e2⟩ := res
      simp only [] at he
      subst he
      rw [parseLoop_error _ _ _ _ _ _ _ hn2, if_neg hne] at h
      simp at h
    · subst hf hdat
      have hnb := Hex4_length hx
      obtain ⟨a1, b1, c1, d1, va, vb, vc, vd, rfl, -⟩ := id hx
      simp only [List.cons_append, List.nil_append, List.cons.injEq] at hr
      obtain ⟨rfl, rfl, rfl, rfl, hr5⟩ := hr
      simp only [Bool.false_eq_true, if_false, Option.getD_some] at h
      by_cases hs : p = serviceLine
      · subst hs
        have h30 : Hex4 [a, b, c, d] 30 := hx
        have e := lowerHex_thirty a b c d h30 hd
        simp only [List.cons.injEq, and_true] at e
        obtain ⟨rfl, rfl, rfl, rfl⟩ := e
        exact ⟨r1, by rw [hr5]; simp⟩
      · rw [if_neg hs] at h
        cases p with
        | nil =>
          have : refRegexp [] = none := by decide
          rw [this] at h
          simp at h
        | cons c0 p0 =>
          simp only [List.cons_append, List.cons.injEq] at hr5
          rw [← hr5.1, refRegexp_hash_first] at h
          simp at h

/-- C20: for every body on which `parseResponse` returns no error, the body
begins with the 30 bytes `"001e# service=git-upload-pack\n"`. -/
theorem parseResponse_ok_starts_with_service (body : Bytes) (m : RefMap)
    (h : parseResponse body = some (.ok m)) :
    ∃ rest, body = ascii "001e# service=git-upload-pack\n" ++ rest := by
  unfold parseResponse at h
  by_cases hs : startRegexp body = true
  · rw [hs] at h
    simp only [Bool.not_true, Bool.false_eq_true, if_false] at h
    obtain ⟨a, b, c, d, rest, rfl, ha, hb, hc, hd⟩ := (startRegexp_iff body).mp hs
    obtain ⟨r1, hr⟩ := parseLoop_ok_first_frame a b c d rest [] m ha hb hc hd h
    exact ⟨r1, hr⟩
  · simp [hs] at h

set_option maxRecDepth 100000 in
/-- The body `sampleResp` is accepted and begins with the frame of the service
line; the same body with the length field written `001E` is rejected, and so
are a body that begins with a flush frame, with an empty data frame, or with a
ref line. -/
theorem parseResponse_ok_starts_with_service_witness :
    (∃ rest, sampleResp = ascii "001e# service=git-upload-pack\n" ++ rest) ∧
    parseResponse (ascii "0000" ++ sampleResp) =
      some (.error (Err.badFirstFive (ascii "0000" ++ sampleResp))) ∧
    parseResponse (ascii "0004" ++ sampleResp) =
      some (.error (Err.badFirstFive (ascii "0004" ++ sampleResp))) ∧
    parseResponse
        (ascii "003fd049f6c27a2244e12041955e262a404c7faba355 refs/heads/master\n") =
      some (.error (Err.badFirstFive
        (ascii "003fd049f6c27a2244e12041955e262a404c7faba355 refs/heads/master\n"))) :=
  ⟨parseResponse_ok_starts_with_service sampleResp _
      (show parseResponse sampleResp = some (.ok
        [(ascii "refs/heads/maint", ascii "95dcfa3633004da0049d3d0fa03f80589cbcaf31"),
         (ascii "refs/heads/master", ascii "d049f6c27a2244e12041955e262a404c7faba355"),
         (ascii "refs/tags/v1.0", ascii "2cb58b79488a98d2721cea644875a8dd0026b115"),
         (ascii "refs/tags/v1.0^\x7b\x7d", ascii "a3c2e2402b99163d1d59756e5f207ae21cccba4c")])
        by decide),
    by decide, by decide, by decide⟩

/-! ## Ref lines with a capability suffix -/

/-- C13, amended: for every hash of 40 lowercase hexadecimal characters, every
non-empty printable name and every byte string `caps` without newline, the
payload `hash ++ " " ++ name ++ NUL ++ caps ++ "\n"` matches `refRegexp` with
the submatches `hash` and `name`; whenever the loop of `parseResponse` reads a
data frame with this payload it goes on with `name` mapped to `hash` in the
map; and the body made of the frame of the service line and the frame of this
payload, when it is at most 65516 bytes long, is parsed into the map with the
single entry `name -> hash`. -/
theorem parseResponse_ref_line_with_caps (hash name caps : Bytes) (hlen : hash.length = 40)
    (hhex : ∀ c ∈ hash, IsLowerHexDigit c) (hne : name ≠ [])
    (hprint : ∀ c ∈ name, IsPrintable c) (hcaps : 10 ∉ caps) :
    refRegexp (hash ++ [32] ++ name ++ (0 :: caps) ++ [10]) = some (hash, name) ∧
    (∀ (r r1 : Bytes) (refs : RefMap),
      nextPktLine r = (⟨some (hash ++ [32] ++ name ++ (0 :: caps) ++ [10]), false, none⟩, r1) →
      parseLoop (r.length + 1) r refs = parseLoop (r1.length + 1) r1 (mapSet refs name hash)) ∧
    ((hash ++ [32] ++ name ++ (0 :: caps) ++ [10]).length ≤ 65516 →
      parseResponse (pktLine serviceLine ++
          pktLine (hash ++ [32] ++ name ++ (0 :: caps) ++ [10])) =
        some (.ok [(name, hash)])) := by
  have hre : refRegexp (hash ++ [32] ++ name ++ (0 :: caps) ++ [10]) = some (hash, name) :=
    refRegexp_line hash name (0 :: caps) hlen (fun c hc => (isLowerHex_iff c).mpr (hhex c hc)) hne
      (fun c hc => by
        have := hprint c hc
        unfold IsPrintable at this
        simp [isPrint, this])
      (Or.inr ⟨caps, rfl, hcaps⟩)
  have hns : hash ++ [32] ++ name ++ (0 :: caps) ++ [10] ≠ serviceLine := by
    intro heq
    have h1 : (hash ++ [32] ++ name ++ (0 :: caps) ++ [10]).length = 26 := by
      rw [heq, serviceLine_length]
    simp only [List.length_append] at h1
    omega
  refine ⟨hre, ?_, ?_⟩
  · intro r r1 refs hn
    rw [parseLoop_step _ _ _ _ _ hn]
    simp only [Bool.false_eq_true, if_false, Option.getD_some]
    rw [if_neg hns, hre]
  · intro hL
    have e1 : pktLine (hash ++ [32] ++ name ++ (0 :: caps) ++ [10]) =
        pktLine (hash ++ [32] ++ name ++ (0 :: caps) ++ [10]) ++ [] := by simp
    unfold parseResponse
    have hst : startRegexp (pktLine serviceLine ++
        pktLine (hash ++ [32] ++ name ++ (0 :: caps) ++ [10])) = true := rfl
    rw [hst]
    simp only [Bool.not_true, Bool.false_eq_true, if_false]
    rw [parseLoop_pktLine _ _ _ (by rw [serviceLine_length]; omega), if_pos rfl, e1,
      parseLoop_pktLine _ _ _ hL, if_neg hns, hre]
    exact parseLoop_eof _ _

set_option maxRecDepth 100000 in
/-- The ref line of `refs/heads/maint` in `sampleResp`, with the capability
suffix `multi_ack`. -/
theorem parseResponse_ref_line_with_caps_witness :
    parseResponse (pktLine serviceLine ++
        pktLine (ascii "95dcfa3633004da0049d3d0fa03f80589cbcaf31" ++ [32] ++
          ascii "refs/heads/maint" ++ (0 :: ascii "multi_ack") ++ [10])) =
      some (.ok [(ascii "refs/heads/maint", ascii "95dcfa3633004da0049d3d0fa03f80589cbcaf31")]) :=
  (parseResponse_ref_line_with_caps (ascii "95dcfa3633004da0049d3d0fa03f80589cbcaf31")
    (ascii "refs/heads/maint") (ascii "multi_ack") (by decide)
    (by
      intro c hc
      have h : isLowerHex c = true :=
        List.all_eq_true.mp
          (show (ascii "95dcfa3633004da0049d3d0fa03f80589cbcaf31").all isLowerHex = true by decide)
          c hc
      exact (isLowerHex_iff c).mp h)
    (by decide)
    (by
      intro c hc
      have h : isPrint c = true :=
        List.all_eq_true.mp (show (ascii "refs/heads/maint").all isPrint = true by decide) c hc
      simpa [isPrint, IsPrintable] using h)
    (by decide)).2.2 (by decide)

set_option maxRecDepth 100000 in
/-- C13 as stated fails: with a newline inside the capability suffix the
payload does not match `refRegexp`, and `parseResponse` rejects the frame as a
bad ref line. -/
theorem parseResponse_rejects_newline_in_caps :
    refRegexp (ascii "95dcfa3633004da0049d3d0fa03f80589cbcaf31" ++ ascii " " ++
        ascii "refs/heads/maint" ++ ascii "\x00" ++ ascii "multi_ack\nofs-delta" ++
        ascii "\n") = none ∧
    parseResponse (pktLine serviceLine ++
        pktLine (ascii "95dcfa3633004da0049d3d0fa03f80589cbcaf31" ++ ascii " " ++
          ascii "refs/heads/maint" ++ ascii "\x00" ++ ascii "multi_ack\nofs-delta" ++
          ascii "\n")) =
      some (.error (Err.badRefLine
        (ascii "95dcfa3633004da0049d3d0fa03f80589cbcaf31" ++ ascii " " ++
          ascii "refs/heads/maint" ++ ascii "\x00" ++ ascii "multi_ack\nofs-delta" ++
          ascii "\n"))) := by
  decide

/-! ## Lemmas: bodies as sequences of frames -/

theorem hex4Value_eq_some_iff (nb : Bytes) (n : Nat) : hex4Value nb = some n ↔ Hex4 nb n := by
  constructor
  · intro h
    match nb, h with
    | [a, b, c, d], h =>
      unfold hex4Value at h
      cases ha : hexValue a with
      | none => simp [ha] at h
      | some va =>
        cases hb : hexValue b with
        | none => simp [ha, hb] at h
        | some vb =>
          cases hc : hexValue c with
          | none => simp [ha, hb, hc] at h
          | some vc =>
            cases hd : hexValue d with
            | none => simp [ha, hb, hc, hd] at h
            | some vd =>
              simp only [ha, hb, hc, hd, Option.some.injEq] at h
              exact ⟨a, b, c, d, va, vb, vc, vd, rfl, ha, hb, hc, hd, h.symm⟩
  · rintro ⟨a, b, c, d, va, vb, vc, vd, rfl, ha, hb, hc, hd, rfl⟩
    simp [hex4Value, ha, hb, hc, hd]

theorem valid_data {nb p : Bytes} (h : (Frame.data nb p).valid = true) :
    Hex4 nb (p.length + 4) ∧ p.length ≤ 65516 := by
  simp only [Frame.valid, Bool.and_eq_true, beq_iff_eq, decide_eq_true_eq] at h
  exact ⟨(hex4Value_eq_some_iff _ _).mp h.1, h.2⟩

theorem parseLoop_frames (fs : List Frame) (hv : ∀ f ∈ fs, f.valid = true) :
    ∀ (tail : Bytes) (refs : RefMap),
      parseLoop ((encodeFrames fs ++ tail).length + 1) (encodeFrames fs ++ tail) refs =
        match foldFrames fs refs with
        | .ok m => parseLoop (tail.length + 1) tail m
        | .error e => some (.error e) := by
  induction fs with
  | nil => intro tail refs; rfl
  | cons f fs ih =>
    intro tail refs
    have ih1 := ih (fun g hg => hv g (List.mem_cons_of_mem _ hg)) tail
    cases f with
    | flush =>
      have e1 : encodeFrames (Frame.flush :: fs) ++ tail =
          48 :: 48 :: 48 :: 48 :: (encodeFrames fs ++ tail) := rfl
      rw [e1, parseLoop_flush, ih1]
      rfl
    | data nb p =>
      obtain ⟨hx, hL⟩ := valid_data (hv _ (List.mem_cons_self _ _))
      have e1 : encodeFrames (Frame.data nb p :: fs) ++ tail =
          nb ++ p ++ (encodeFrames fs ++ tail) := by
        simp [encodeFrames, Frame.encode]
      have hn := nextPktLine_data_eq nb p (encodeFrames fs ++ tail) hx hL
      rw [e1, parseLoop_step _ _ _ _ _ hn]
      simp only [Bool.false_eq_true, if_false, Option.getD_some, foldFrames]
      by_cases hs : p = serviceLine
      · rw [if_pos hs, if_pos hs, ih1]
      · rw [if_neg hs, if_neg hs]
        cases hr : refRegexp p with
        | none => rfl
        | some x =>
          obtain ⟨m1, m2⟩ := x
          exact ih1 _

theorem parseLoop_at_eof (tail : Bytes) (refs : RefMap) (f : Nat)
    (h : (nextPktLine tail).1.err = some Err.EOF) :
    parseLoop (f + 1) tail refs = some (.ok refs) := by
  rcases hn : nextPktLine tail with ⟨⟨data, flush, err⟩, r1⟩
  rw [hn] at h
  simp only [] at h
  subst h
  rw [parseLoop_error _ _ _ _ _ _ _ hn, if_pos rfl]

theorem parseResponse_frames (fs : List Frame) (hv : ∀ f ∈ fs, f.valid = true) (tail : Bytes)
    (htail : (nextPktLine tail).1.err = some Err.EOF) :
    parseResponse (encodeFrames fs ++ tail) =
      if startRegexp (encodeFrames fs ++ tail) = true then some (foldFrames fs [])
      else some (.error (Err.badFirstFive (encodeFrames fs ++ tail))) := by
  unfold parseResponse
  by_cases hs : startRegexp (encodeFrames fs ++ tail) = true
  · rw [hs]
    simp only [Bool.not_true, Bool.false_eq_true, if_false, if_true]
    rw [parseLoop_frames fs hv]
    cases foldFrames fs [] with
    | ok m => exact parseLoop_at_eof tail m _ htail
    | error e => rfl
  · simp [hs]

theorem refRegexp_serviceLine : refRegexp serviceLine = none := by decide

theorem foldFrames_append (fs1 fs2 : List Frame) : ∀ refs : RefMap,
    foldFrames (fs1 ++ fs2) refs =
      match foldFrames fs1 refs with
      | .ok m => foldFrames fs2 m
      | .error e => .error e := by
  induction fs1 with
  | nil => intro refs; rfl
  | cons f fs ih =>
    intro refs
    cases f with
    | flush => exact ih refs
    | data nb p =>
      simp only [List.cons_append, foldFrames]
      by_cases hs : p = serviceLine
      · rw [if_pos hs, if_pos hs]
        exact ih refs
      · rw [if_neg hs, if_neg hs]
        cases hr : refRegexp p with
        | none => rfl
        | some x => exact ih _

theorem foldFrames_ok_iff (fs : List Frame) : ∀ refs : RefMap,
    (∃ m, foldFrames fs refs = .ok m) ↔ ∀ f ∈ fs, f.accepted = true := by
  induction fs with
  | nil => intro refs; simp [foldFrames]
  | cons f fs ih =>
    intro refs
    cases f with
    | flush =>
      have hhead : Frame.flush.accepted = true := rfl
      simp only [foldFrames, List.mem_cons, forall_eq_or_imp, hhead, true_and]
      exact ih refs
    | data nb p =>
      have hhead : (Frame.data nb p).accepted = true ↔
          (p = serviceLine ∨ (refRegexp p).isSome = true) := by
        simp [Frame.accepted]
      simp only [foldFrames, List.mem_cons, forall_eq_or_imp, hhead]
      by_cases hs : p = serviceLine
      · rw [if_pos hs, ih refs]
        simp [hs]
      · rw [if_neg hs]
        cases hr : refRegexp p with
        | none => simp [hs]
        | some x =>
          simp only [hs, false_or, Option.isSome_some, true_and]
          exact ih _

theorem foldFrames_mapGet_of_no_ref (name : Bytes) (fs : List Frame) :
    ∀ (refs m : RefMap), foldFrames fs refs = .ok m →
      (∀ f ∈ fs, ∀ h, f.refLine ≠ some (h, name)) → mapGet m name = mapGet refs name := by
  induction fs with
  | nil =>
    intro refs m h _
    simp only [foldFrames, Except.ok.injEq] at h
    rw [h]
  | cons f fs ih =>
    intro refs m h hno
    have hno1 : ∀ g ∈ fs, ∀ h, g.refLine ≠ some (h, name) :=
      fun g hg => hno g (List.mem_cons_of_mem _ hg)
    cases f with
    | flush => exact ih refs m h hno1
    | data nb p =>
      simp only [foldFrames] at h
      by_cases hs : p = serviceLine
      · rw [if_pos hs] at h
        exact ih refs m h hno1
      · rw [if_neg hs] at h
        cases hr : refRegexp p with
        | none => rw [hr] at h; simp at h
        | some x =>
          obtain ⟨m1, m2⟩ := x
          rw [hr] at h
          simp only [] at h
          have hne : name ≠ m2 := by
            intro e
            apply hno (Frame.data nb p) (List.mem_cons_self _ _) m1
            rw [e]
            exact hr
          rw [ih _ m h hno1, mapGet_mapSet_ne _ _ _ _ hne]

/-! ## A repeated ref name -/

/-- C12: for a body made of complete frames, possibly followed by a tail at
which the framer signals the end of input, in which the data frame with payload
`p` is the last ref line that carries `name`: `parseResponse` succeeds exactly
when the body passes the first-five-bytes check and every frame is a flush
frame, the service line or a ref line, whether or not ref names repeat; and
whenever it succeeds the returned map associates `name` with the hash of `p`. -/
theorem parseResponse_last_ref_line_wins (fs1 fs2 : List Frame) (nb p tail hash name : Bytes)
    (hv : ∀ f ∈ fs1 ++ Frame.data nb p :: fs2, f.valid = true)
    (htail : (nextPktLine tail).1.err = some Err.EOF)
    (hp : refRegexp p = some (hash, name))
    (hlast : ∀ f ∈ fs2, ∀ h, f.refLine ≠ some (h, name)) :
    ((∃ m, parseResponse (encodeFrames (fs1 ++ Frame.data nb p :: fs2) ++ tail) = some (.ok m)) ↔
      startRegexp (encodeFrames (fs1 ++ Frame.data nb p :: fs2) ++ tail) = true ∧
        ∀ f ∈ fs1 ++ Frame.data nb p :: fs2, f.accepted = true) ∧
    ∀ m, parseResponse (encodeFrames (fs1 ++ Frame.data nb p :: fs2) ++ tail) = some (.ok m) →
      mapGet m name = some hash := by
  have hpr := parseResponse_frames _ hv tail htail
  constructor
  · rw [hpr, ← foldFrames_ok_iff _ []]
    by_cases hs : startRegexp (encodeFrames (fs1 ++ Frame.data nb p :: fs2) ++ tail) = true
    · simp [hs]
    · simp [hs]
  · intro m hm
    rw [hpr] at hm
    by_cases hs : startRegexp (encodeFrames (fs1 ++ Frame.data nb p :: fs2) ++ tail) = true
    · rw [if_pos hs] at hm
      simp only [Option.some.injEq] at hm
      rw [foldFrames_append] at hm
      cases h1 : foldFrames fs1 [] with
      | error e => rw [h1] at hm; simp at hm
      | ok m1 =>
        rw [h1] at hm
        simp only [foldFrames] at hm
        have hns : p ≠ serviceLine := by
          intro e
          rw [e, refRegexp_serviceLine] at hp
          simp at hp
        rw [if_neg hns, hp] at hm
        simp only [] at hm
        rw [foldFrames_mapGet_of_no_ref name fs2 _ m hm hlast, mapGet_mapSet_self]
    · rw [if_neg hs] at hm
      simp at hm

theorem valid_of_Hex4 {nb p : Bytes} (hx : Hex4 nb (p.length + 4)) (hL : p.length ≤ 65516) :
    (Frame.data nb p).valid = true := by
  simp only [Frame.valid, Bool.and_eq_true, beq_iff_eq, decide_eq_true_eq]
  exact ⟨(hex4Value_eq_some_iff _ _).mpr hx, hL⟩

theorem parseLoop_ok_decompose (f : Nat) : ∀ (r : Bytes) (refs m : RefMap),
    parseLoop f r refs = some (.ok m) →
      ∃ fs tail, r = encodeFrames fs ++ tail ∧ (∀ g ∈ fs, g.valid = true) ∧
        (nextPktLine tail).1.err = some Err.EOF := by
  induction f with
  | zero => intro r refs m h; simp [parseLoop] at h
  | succ n ih =>
    intro r refs m h
    rw [parseLoop] at h
    rcases hnp : nextPktLine r with ⟨⟨data, flush, err⟩, br1⟩
    rw [hnp] at h
    cases err with
    | some e =>
      cases e <;> simp at h
      exact ⟨[], r, rfl, by simp, by rw [hnp]⟩
    | none =>
      have hrec : ∃ refs1, parseLoop n br1 refs1 = some (.ok m) := by
        simp only [] at h
        split_ifs at h
        · exact ⟨_, h⟩
        · split at h
          · simp at h
          · exact ⟨_, h⟩
        · exact ⟨_, h⟩
      obtain ⟨refs1, hrec⟩ := hrec
      obtain ⟨fs, tail, hr1, hv, ht⟩ := ih br1 refs1 m hrec
      rcases nextPktLine_ok_cases _ _ _ _ hnp with ⟨-, -, hr⟩ | ⟨-, nb, p, -, hr, hx, hL⟩
      · refine ⟨Frame.flush :: fs, tail, ?_, ?_, ht⟩
        · rw [hr, hr1]
          rfl
        · intro g hg
          rcases List.mem_cons.mp hg with rfl | hg
          · rfl
          · exact hv g hg
      · refine ⟨Frame.data nb p :: fs, tail, ?_, ?_, ht⟩
        · rw [hr, hr1]
          simp [encodeFrames, Frame.encode]
        · intro g hg
          rcases List.mem_cons.mp hg with rfl | hg
          · exact valid_of_Hex4 hx hL
          · exact hv g hg

/-- Every body on which `parseResponse` returns no error is a sequence of
complete frames followed by a tail at which the framer signals the end of
input: the empty tail, or a length field alone that declares a payload. -/
theorem parseResponse_ok_decompose (body : Bytes) (m : RefMap)
    (h : parseResponse body = some (.ok m)) :
    ∃ fs tail, body = encodeFrames fs ++ tail ∧ (∀ g ∈ fs, g.valid = true) ∧
      (nextPktLine tail).1.err = some Err.EOF := by
  unfold parseResponse at h
  by_cases hs : (!startRegexp body) = true
  · rw [if_pos hs] at h
    simp at h
  · rw [if_neg hs] at h
    exact parseLoop_ok_decompose _ _ _ _ h

set_option maxRecDepth 100000 in
/-- Two ref lines for `refs/heads/master` with different hashes, then a tag: the
body is accepted and `refs/heads/master` is mapped to the hash of the second line. -/
theorem parseResponse_last_ref_line_wins_witness :
    parseResponse (ascii "001e# service=git-upload-pack\n" ++
        ascii "003f95dcfa3633004da0049d3d0fa03f80589cbcaf31 refs/heads/master\n" ++
        ascii "003fd049f6c27a2244e12041955e262a404c7faba355 refs/heads/master\n" ++
        ascii "003c2cb58b79488a98d2721cea644875a8dd0026b115 refs/tags/v1.0\n") =
      some (.ok [(ascii "refs/heads/master", ascii "d049f6c27a2244e12041955e262a404c7faba355"),
        (ascii "refs/tags/v1.0", ascii "2cb58b79488a98d2721cea644875a8dd0026b115")]) ∧
    mapGet [(ascii "refs/heads/master", ascii "d049f6c27a2244e12041955e262a404c7faba355"),
        (ascii "refs/tags/v1.0", ascii "2cb58b79488a98d2721cea644875a8dd0026b115")]
        (ascii "refs/heads/master") =
      some (ascii "d049f6c27a2244e12041955e262a404c7faba355") :=
  ⟨by decide,
   (parseResponse_last_ref_line_wins
      [serviceFrame, Frame.data (ascii "003f")
        (ascii "95dcfa3633004da0049d3d0fa03f80589cbcaf31 refs/heads/master\n")]
      [Frame.data (ascii "003c")
        (ascii "2cb58b79488a98d2721cea644875a8dd0026b115 refs/tags/v1.0\n")]
      (ascii "003f") (ascii "d049f6c27a2244e12041955e262a404c7faba355 refs/heads/master\n") []
      (ascii "d049f6c27a2244e12041955e262a404c7faba355") (ascii "refs/heads/master")
      (by decide) (by decide) (by decide)
      (by
        intro f hf h
        simp only [List.mem_singleton] at hf
        subst hf
        have h0 : (Frame.data (ascii "003c")
            (ascii "2cb58b79488a98d2721cea644875a8dd0026b115 refs/tags/v1.0\n")).refLine =
            some (ascii "2cb58b79488a98d2721cea644875a8dd0026b115", ascii "refs/tags/v1.0") := by
          decide
        rw [h0]
        intro e
        simp only [Option.some.injEq, Prod.mk.injEq] at e
        exact absurd e.2 (by decide))).2 _ (by decide)⟩

/-! ## Lemmas: the first five bytes of a sequence of frames -/

theorem head_encodeFrames_ne (gs : List Frame) (hv : ∀ g ∈ gs, g.valid = true) (c : Nat)
    (t : Bytes) (h : encodeFrames gs = c :: t) : c ≠ 35 := by
  cases gs with
  | nil => simp [encodeFrames] at h
  | cons g gs =>
    cases g with
    | flush =>
      have e : encodeFrames (Frame.flush :: gs) = 48 :: 48 :: 48 :: 48 :: encodeFrames gs := rfl
      rw [e] at h
      simp only [List.cons.injEq] at h
      omega
    | data nb p =>
      obtain ⟨hx, -⟩ := valid_data (hv _ (List.mem_cons_self _ _))
      obtain ⟨a, b, c1, d, va, vb, vc, vd, rfl, ha, -⟩ := hx
      simp only [encodeFrames, Frame.encode, List.cons_append, List.cons.injEq] at h
      intro e
      rw [h.1, e] at ha
      simp [hexValue] at ha

theorem startRegexp_four (a b c d : Nat) (gs : List Frame) (hv : ∀ g ∈ gs, g.valid = true) :
    startRegexp (a :: b :: c :: d :: encodeFrames gs) = false := by
  cases he : encodeFrames gs with
  | nil => rfl
  | cons e t =>
    have hne := head_encodeFrames_ne gs hv e t he
    simp [startRegexp, hne]

theorem startRegexp_encodeFrames (fs : List Frame) (hv : ∀ f ∈ fs, f.valid = true) :
    startRegexp (encodeFrames fs) = startOK fs := by
  cases fs with
  | nil => rfl
  | cons f gs =>
    have hvg : ∀ g ∈ gs, g.valid = true := fun g hg => hv g (List.mem_cons_of_mem _ hg)
    cases f with
    | flush => exact startRegexp_four 48 48 48 48 gs hvg
    | data nb p =>
      obtain ⟨hx, -⟩ := valid_data (hv _ (List.mem_cons_self _ _))
      obtain ⟨a, b, c, d, va, vb, vc, vd, rfl, -⟩ := hx
      cases p with
      | nil => exact startRegexp_four a b c d gs hvg
      | cons e p => rfl

theorem startOK_cons (f : Frame) (fs gs : List Frame) : startOK (f :: fs) = startOK (f :: gs) := by
  cases f with
  | flush => rfl
  | data nb p =>
    rcases nb with _ | ⟨a, _ | ⟨b, _ | ⟨c, _ | ⟨d, _ | ⟨x, r⟩⟩⟩⟩⟩ <;> cases p <;> rfl

theorem parseResponse_encodeFrames (fs : List Frame) (hv : ∀ f ∈ fs, f.valid = true) :
    parseResponse (encodeFrames fs) =
      if startOK fs = true then some (foldFrames fs [])
      else some (.error (Err.badFirstFive (encodeFrames fs))) := by
  have h := parseResponse_frames fs hv [] (by decide)
  rw [List.append_nil, startRegexp_encodeFrames fs hv] at h
  exact h

/-! ## Inserting the service line -/

theorem foldFrames_insertService (fs gs : List Frame) (h : InsertService fs gs) :
    ∀ refs : RefMap, foldFrames gs refs = foldFrames fs refs := by
  induction h with
  | nil => intro refs; rfl
  | keep f fs gs _ ih =>
    intro refs
    cases f with
    | flush => exact ih refs
    | data nb p =>
      simp only [foldFrames]
      by_cases hs : p = serviceLine
      · rw [if_pos hs, if_pos hs]
        exact ih refs
      · rw [if_neg hs, if_neg hs]
        cases hr : refRegexp p with
        | none => rfl
        | some x => exact ih _
  | ins fs gs _ ih =>
    intro refs
    have e : foldFrames (serviceFrame :: gs) refs = foldFrames gs refs := by
      unfold serviceFrame
      rw [foldFrames, if_pos rfl]
    rw [e]
    exact ih refs

theorem valid_insertService (fs gs : List Frame) (h : InsertService fs gs)
    (hv : ∀ f ∈ fs, f.valid = true) : ∀ g ∈ gs, g.valid = true := by
  induction h with
  | nil => exact hv
  | keep f fs gs _ ih =>
    intro g hg
    rcases List.mem_cons.mp hg with rfl | hg
    · exact hv _ (List.mem_cons_self _ _)
    · exact ih (fun x hx => hv x (List.mem_cons_of_mem _ hx)) g hg
  | ins fs gs _ ih =>
    intro g hg
    rcases List.mem_cons.mp hg with rfl | hg
    · decide
    · exact ih hv g hg

theorem startOK_insertService (fs gs : List Frame) (h : InsertService fs gs)
    (hs : startOK fs = true) : startOK gs = true := by
  cases h with
  | nil => exact hs
  | keep f fs gs _ => rw [startOK_cons f gs fs]; exact hs
  | ins fs gs _ => rfl

/-- C14: for every body that is a sequence of complete frames and on which
`parseResponse` succeeds with the map `m`, every body obtained by inserting the
frame `"001e# service=git-upload-pack\n"` at frame boundaries, at the start,
between two frames or at the end, any number of times, is a body on which
`parseResponse` succeeds with the same map `m`. -/
theorem parseResponse_insert_service (fs gs : List Frame) (m : RefMap)
    (hv : ∀ f ∈ fs, f.valid = true) (hins : InsertService fs gs)
    (hm : parseResponse (encodeFrames fs) = some (.ok m)) :
    parseResponse (encodeFrames gs) = some (.ok m) := by
  rw [parseResponse_encodeFrames fs hv] at hm
  rw [parseResponse_encodeFrames gs (valid_insertService fs gs hins hv)]
  by_cases hs : startOK fs = true
  · rw [if_pos hs] at hm
    rw [if_pos (startOK_insertService fs gs hins hs), foldFrames_insertService fs gs hins]
    exact hm
  · rw [if_neg hs] at hm
    simp at hm

set_option maxRecDepth 100000 in
/-- The service frame inserted at the start, between the two frames and at the
end of a body with one ref: the same map is returned. -/
theorem parseResponse_insert_service_witness :
    encodeFrames [serviceFrame, serviceFrame, serviceFrame,
        Frame.data (ascii "003f")
          (ascii "d049f6c27a2244e12041955e262a404c7faba355 refs/heads/master\n"),
        serviceFrame] =
      ascii "001e# service=git-upload-pack\n" ++ ascii "001e# service=git-upload-pack\n" ++
        ascii "001e# service=git-upload-pack\n" ++
        ascii "003fd049f6c27a2244e12041955e262a404c7faba355 refs/heads/master\n" ++
        ascii "001e# service=git-upload-pack\n" ∧
    parseResponse (encodeFrames [serviceFrame, serviceFrame, serviceFrame,
        Frame.data (ascii "003f")
          (ascii "d049f6c27a2244e12041955e262a404c7faba355 refs/heads/master\n"),
        serviceFrame]) =
      some (.ok [(ascii "refs/heads/master", ascii "d049f6c27a2244e12041955e262a404c7faba355")]) :=
  ⟨by decide,
   parseResponse_insert_service
    [serviceFrame, Frame.data (ascii "003f")
      (ascii "d049f6c27a2244e12041955e262a404c7faba355 refs/heads/master\n")]
    _ _ (by decide)
    (InsertService.ins _ _ (InsertService.keep _ _ _ (InsertService.ins _ _
      (InsertService.keep _ _ _ (InsertService.ins _ _ InsertService.nil)))))
    (by decide)⟩

/-! ## Flush frames -/

theorem foldFrames_removeFlush (fs : List Frame) : ∀ refs : RefMap,
    foldFrames (removeFlush fs) refs = foldFrames fs refs := by
  induction fs with
  | nil => intro refs; rfl
  | cons f fs ih =>
    intro refs
    cases f with
    | flush =>
      have e : removeFlush (Frame.flush :: fs) = removeFlush fs := rfl
      rw [e]
      exact ih refs
    | data nb p =>
      have e : removeFlush (Frame.data nb p :: fs) = Frame.data nb p :: removeFlush fs := rfl
      rw [e]
      simp only [foldFrames]
      by_cases hs : p = serviceLine
      · rw [if_pos hs, if_pos hs]
        exact ih refs
      · rw [if_neg hs, if_neg hs]
        cases hr : refRegexp p with
        | none => rfl
        | some x => exact ih _

theorem valid_removeFlush (fs : List Frame) (hv : ∀ f ∈ fs, f.valid = true) :
    ∀ g ∈ removeFlush fs, g.valid = true :=
  fun g hg => hv g (List.mem_of_mem_filter hg)

/-- C15, amended: for every sequence of frames that does not begin with a flush
frame, `parseResponse` on the encoding of the sequence returns the same map, or
fails in both cases, as on the encoding of the sequence with every flush frame
removed; and the encoding of a sequence that begins with a flush frame fails
the first-five-bytes check. -/
theorem parseResponse_flush_ignored (fs : List Frame) (hv : ∀ f ∈ fs, f.valid = true) :
    (fs.head? ≠ some Frame.flush →
      ∀ m, parseResponse (encodeFrames fs) = some (.ok m) ↔
        parseResponse (encodeFrames (removeFlush fs)) = some (.ok m)) ∧
    (fs.head? = some Frame.flush →
      parseResponse (encodeFrames fs) = some (.error (Err.badFirstFive (encodeFrames fs)))) := by
  rw [parseResponse_encodeFrames fs hv,
    parseResponse_encodeFrames _ (valid_removeFlush fs hv), foldFrames_removeFlush]
  constructor
  · intro hh m
    have hs : startOK (removeFlush fs) = startOK fs := by
      cases fs with
      | nil => rfl
      | cons f gs =>
        cases f with
        | flush => simp at hh
        | data nb p =>
          have e : removeFlush (Frame.data nb p :: gs) = Frame.data nb p :: removeFlush gs := rfl
          rw [e]
          exact startOK_cons _ _ _
    rw [hs]
    by_cases h1 : startOK fs = true
    · rw [if_pos h1, if_pos h1]
    · rw [if_neg h1, if_neg h1]
      simp
  · intro hh
    cases fs with
    | nil => simp at hh
    | cons f gs =>
      simp only [List.head?_cons, Option.some.injEq] at hh
      subst hh
      rfl

set_option maxRecDepth 100000 in
/-- A flush frame between the service line and a ref line, and one at the end:
the same map is returned with and without them. -/
theorem parseResponse_flush_ignored_witness :
    parseResponse (encodeFrames [serviceFrame, Frame.flush,
        Frame.data (ascii "003f")
          (ascii "d049f6c27a2244e12041955e262a404c7faba355 refs/heads/master\n"),
        Frame.flush]) =
      some (.ok [(ascii "refs/heads/master", ascii "d049f6c27a2244e12041955e262a404c7faba355")]) ∧
    parseResponse (encodeFrames (removeFlush [serviceFrame, Frame.flush,
        Frame.data (ascii "003f")
          (ascii "d049f6c27a2244e12041955e262a404c7faba355 refs/heads/master\n"),
        Frame.flush])) =
      some (.ok [(ascii "refs/heads/master", ascii "d049f6c27a2244e12041955e262a404c7faba355")]) :=
  ⟨by decide,
   ((parseResponse_flush_ignored [serviceFrame, Frame.flush,
        Frame.data (ascii "003f")
          (ascii "d049f6c27a2244e12041955e262a404c7faba355 refs/heads/master\n"),
        Frame.flush] (by decide)).1 (by decide) _).mp (by decide)⟩

set_option maxRecDepth 100000 in
/-- C15 as stated fails: the encoding of a flush frame followed by the service
frame is rejected by the first-five-bytes check, and the encoding of the same
sequence without the flush frame is accepted with the empty map. -/
theorem parseResponse_leading_flush_rejected :
    encodeFrames [Frame.flush, serviceFrame] = ascii "0000001e# service=git-upload-pack\n" ∧
    parseResponse (encodeFrames [Frame.flush, serviceFrame]) =
      some (.error (Err.badFirstFive (ascii "0000001e# service=git-upload-pack\n"))) ∧
    encodeFrames (removeFlush [Frame.flush, serviceFrame]) =
      ascii "001e# service=git-upload-pack\n" ∧
    parseResponse (encodeFrames (removeFlush [Frame.flush, serviceFrame])) = some (.ok []) := by
  decide

/-! ## Symmetry of the diff -/

theorem gitcmp_filter_ref (o1 o2 o3 : RangeOrder) (repo1 repo2 : Bytes) (A B : RefMap)
    (hA : (mapKeys A).Nodup) (hB : (mapKeys B).Nodup) (name : Bytes) :
    (gitcmp o1 o2 o3 repo1 repo2 A B).1.filter (fun x => decide (x.ref = name)) =
      match mapGet A name, mapGet B name with
      | some a, some b => if a ≠ b then [Line.differs name a b] else []
      | some _, none => [Line.onlyIn repo1 name]
      | none, some _ => [Line.onlyIn repo2 name]
      | none, none => [] := by
  have hL := nodup_mapKeys_perm (o1.perm A) hA
  have hmem : ∀ k, decide (k ∈ mapKeys (o1.ord A)) = (mapGet A k).isSome := by
    intro k
    rw [Bool.eq_iff_iff, decide_eq_true_iff, mem_mapKeys_perm (o1.perm A), mem_mapKeys_iff]
  have h1 := filter_ref_filterMap (diffLine B)
    (by
      intro e x hx
      unfold diffLine at hx
      split at hx
      · split_ifs at hx
        simp only [Option.some.injEq] at hx
        subst hx
        rfl
      · simp at hx) name (o1.ord A) hL
  rw [mapGet_perm (o1.perm A) hA] at h1
  have h2 := filter_ref_only o2 repo1 name
    (A.filter (fun e => !(decide (e.1 ∈ mapKeys (o1.ord A)) && (mapGet B e.1).isSome)))
    (nodup_mapKeys_filter _ A hA)
  rw [mapGet_filter_key
    (fun k => !(decide (k ∈ mapKeys (o1.ord A)) && (mapGet B k).isSome)) A name] at h2
  have h3 := filter_ref_only o3 repo2 name
    (B.filter (fun e => decide (e.1 ∉ mapKeys (o1.ord A)))) (nodup_mapKeys_filter _ B hB)
  rw [mapGet_filter_key (fun k => decide (k ∉ mapKeys (o1.ord A))) B name] at h3
  rw [gitcmp_out o1 o2 o3 repo1 repo2 A B hA, List.filter_append, List.filter_append, h1, h2, h3]
  have hn := hmem name
  cases ha : mapGet A name with
  | none =>
    rw [ha] at hn
    have hn2 : name ∉ mapKeys (o1.ord A) := by simpa using hn
    cases hb : mapGet B name <;> simp [hn2]
  | some a =>
    rw [ha] at hn
    have hn2 : name ∈ mapKeys (o1.ord A) := by simpa using hn
    cases hb : mapGet B name with
    | none => simp [hn2, diffLine, hb]
    | some b =>
      by_cases hab : a = b <;> simp [hn2, diffLine, hb, hab]

theorem mem_gitcmp_differs (o1 o2 o3 : RangeOrder) (repo1 repo2 : Bytes) (A B : RefMap)
    (hA : (mapKeys A).Nodup) (hB : (mapKeys B).Nodup) (name a b : Bytes) :
    Line.differs name a b ∈ (gitcmp o1 o2 o3 repo1 repo2 A B).1 ↔
      mapGet A name = some a ∧ mapGet B name = some b ∧ a ≠ b := by
  have hf := gitcmp_filter_ref o1 o2 o3 repo1 repo2 A B hA hB name
  have hmem : Line.differs name a b ∈ (gitcmp o1 o2 o3 repo1 repo2 A B).1 ↔
      Line.differs name a b ∈
        (gitcmp o1 o2 o3 repo1 repo2 A B).1.filter (fun x => decide (x.ref = name)) := by
    rw [List.mem_filter]
    simp [Line.ref]
  rw [hmem, hf]
  cases ha : mapGet A name with
  | none => cases hb : mapGet B name <;> simp
  | some a1 =>
    cases hb : mapGet B name with
    | none => simp
    | some b1 =>
      by_cases hab : a1 = b1
      · subst hab
        simp
        intro h1 h2
        rw [← h1, ← h2]
      · simp only [ne_eq, hab, not_false_eq_true, if_true, List.mem_singleton, Line.differs.injEq,
          true_and, Option.some.injEq]
        constructor
        · rintro ⟨rfl, rfl⟩
          exact ⟨rfl, rfl, hab⟩
        · rintro ⟨rfl, rfl, -⟩
          exact ⟨rfl, rfl⟩

theorem mem_gitcmp_onlyIn (o1 o2 o3 : RangeOrder) (repo1 repo2 : Bytes) (A B : RefMap)
    (hA : (mapKeys A).Nodup) (hB : (mapKeys B).Nodup) (u name : Bytes) :
    Line.onlyIn u name ∈ (gitcmp o1 o2 o3 repo1 repo2 A B).1 ↔
      (u = repo1 ∧ (mapGet A name).isSome = true ∧ mapGet B name = none) ∨
      (u = repo2 ∧ mapGet A name = none ∧ (mapGet B name).isSome = true) := by
  have hf := gitcmp_filter_ref o1 o2 o3 repo1 repo2 A B hA hB name
  have hmem : Line.onlyIn u name ∈ (gitcmp o1 o2 o3 repo1 repo2 A B).1 ↔
      Line.onlyIn u name ∈
        (gitcmp o1 o2 o3 repo1 repo2 A B).1.filter (fun x => decide (x.ref = name)) := by
    rw [List.mem_filter]
    simp [Line.ref]
  rw [hmem, hf]
  cases ha : mapGet A name with
  | none => cases hb : mapGet B name <;> simp
  | some a1 =>
    cases hb : mapGet B name with
    | none => simp
    | some b1 => by_cases hab : a1 = b1 <;> simp [hab]

/-- C18: for any two ref maps `A` and `B`, any URLs and any iteration orders,
a name is reported as only in the repository of `A` by the run on `(A, B)` if
and only if it is by the run on `(B, A)`, the same holds for the repository of
`B`, and a name is reported as differing with the hashes `a` and `b` by the
run on `(A, B)` if and only if it is reported as differing with the hashes `b`
and `a` by the run on `(B, A)`. -/
theorem gitcmp_diff_symmetry (o1 o2 o3 o4 o5 o6 : RangeOrder) (repo1 repo2 : Bytes)
    (A B : RefMap) (hA : (mapKeys A).Nodup) (hB : (mapKeys B).Nodup) :
    (∀ name, Line.onlyIn repo1 name ∈ (gitcmp o1 o2 o3 repo1 repo2 A B).1 ↔
      Line.onlyIn repo1 name ∈ (gitcmp o4 o5 o6 repo2 repo1 B A).1) ∧
    (∀ name, Line.onlyIn repo2 name ∈ (gitcmp o1 o2 o3 repo1 repo2 A B).1 ↔
      Line.onlyIn repo2 name ∈ (gitcmp o4 o5 o6 repo2 repo1 B A).1) ∧
    (∀ name a b, Line.differs name a b ∈ (gitcmp o1 o2 o3 repo1 repo2 A B).1 ↔
      Line.differs name b a ∈ (gitcmp o4 o5 o6 repo2 repo1 B A).1) := by
  refine ⟨?_, ?_, ?_⟩
  · intro name
    rw [mem_gitcmp_onlyIn o1 o2 o3 repo1 repo2 A B hA hB,
      mem_gitcmp_onlyIn o4 o5 o6 repo2 repo1 B A hB hA]
    tauto
  · intro name
    rw [mem_gitcmp_onlyIn o1 o2 o3 repo1 repo2 A B hA hB,
      mem_gitcmp_onlyIn o4 o5 o6 repo2 repo1 B A hB hA]
    tauto
  · intro name a b
    rw [mem_gitcmp_differs o1 o2 o3 repo1 repo2 A B hA hB,
      mem_gitcmp_differs o4 o5 o6 repo2 repo1 B A hB hA]
    constructor
    · rintro ⟨h1, h2, h3⟩
      exact ⟨h2, h1, fun e => h3 e.symm⟩
    · rintro ⟨h1, h2, h3⟩
      exact ⟨h2, h1, fun e => h3 e.symm⟩

set_option maxRecDepth 100000 in
/-- The two runs on maps with one ref of each kind: the `differs` line of `c`
carries the hashes in the order of the maps, and the `Only in` lines are the same. -/
theorem gitcmp_diff_symmetry_witness :
    (gitcmp RangeOrder.listed RangeOrder.listed RangeOrder.listed (ascii "u1") (ascii "u2")
        [(ascii "a", ascii "1"), (ascii "b", ascii "2"), (ascii "c", ascii "3")]
        [(ascii "b", ascii "2"), (ascii "c", ascii "4"), (ascii "d", ascii "5")]).1 =
      [Line.differs (ascii "c") (ascii "3") (ascii "4"), Line.onlyIn (ascii "u1") (ascii "a"),
        Line.onlyIn (ascii "u2") (ascii "d")] ∧
    (gitcmp RangeOrder.reversed RangeOrder.listed RangeOrder.listed (ascii "u2") (ascii "u1")
        [(ascii "b", ascii "2"), (ascii "c", ascii "4"), (ascii "d", ascii "5")]
        [(ascii "a", ascii "1"), (ascii "b", ascii "2"), (ascii "c", ascii "3")]).1 =
      [Line.differs (ascii "c") (ascii "4") (ascii "3"), Line.onlyIn (ascii "u2") (ascii "d"),
        Line.onlyIn (ascii "u1") (ascii "a")] ∧
    (Line.differs (ascii "c") (ascii "3") (ascii "4") ∈
        (gitcmp RangeOrder.listed RangeOrder.listed RangeOrder.listed (ascii "u1") (ascii "u2")
          [(ascii "a", ascii "1"), (ascii "b", ascii "2"), (ascii "c", ascii "3")]
          [(ascii "b", ascii "2"), (ascii "c", ascii "4"), (ascii "d", ascii "5")]).1 ↔
      Line.differs (ascii "c") (ascii "4") (ascii "3") ∈
        (gitcmp RangeOrder.reversed RangeOrder.listed RangeOrder.listed (ascii "u2") (ascii "u1")
          [(ascii "b", ascii "2"), (ascii "c", ascii "4"), (ascii "d", ascii "5")]
          [(ascii "a", ascii "1"), (ascii "b", ascii "2"), (ascii "c", ascii "3")]).1) :=
  ⟨by decide, by decide,
   (gitcmp_diff_symmetry RangeOrder.listed RangeOrder.listed RangeOrder.listed
      RangeOrder.reversed RangeOrder.listed RangeOrder.listed (ascii "u1") (ascii "u2")
      [(ascii "a", ascii "1"), (ascii "b", ascii "2"), (ascii "c", ascii "3")]
      [(ascii "b", ascii "2"), (ascii "c", ascii "4"), (ascii "d", ascii "5")]
      (by decide) (by decide)).2.2 (ascii "c") (ascii "3") (ascii "4")⟩

/-! ## The exit code and the lines of `gitcmp` without a mismatch -/

/-- C4, amended: for every pair of ref maps in which no ref name has different
hashes in the two maps, and any iteration orders, the comparison ends with exit
code 0 and prints only `Only in` lines: exactly one line for each name that is
in one map only, with the URL of the map that holds it, and no line for a name
that is in both maps or in neither; the names that are in one map only do not
change the exit code. -/
theorem gitcmp_exit_code_without_mismatch (o1 o2 o3 : RangeOrder) (repo1 repo2 : Bytes)
    (A B : RefMap) (hA : (mapKeys A).Nodup) (hB : (mapKeys B).Nodup)
    (h : ∀ k a b, mapGet A k = some a → mapGet B k = some b → a = b) :
    (gitcmp o1 o2 o3 repo1 repo2 A B).2 = 0 ∧
    (∀ x ∈ (gitcmp o1 o2 o3 repo1 repo2 A B).1, ∃ u ref, x = Line.onlyIn u ref) ∧
    (∀ name, (gitcmp o1 o2 o3 repo1 repo2 A B).1.filter (fun x => decide (x.ref = name)) =
      match mapGet A name, mapGet B name with
      | some _, none => [Line.onlyIn repo1 name]
      | none, some _ => [Line.onlyIn repo2 name]
      | _, _ => []) := by
  refine ⟨gitcmp_exit_zero o1 o2 o3 repo1 repo2 A B, ?_, ?_⟩
  · rw [gitcmp_out o1 o2 o3 repo1 repo2 A B hA,
      filterMap_diffLine_eq_nil (o1.ord A) A B (o1.perm A) hA h]
    intro x hx
    simp only [List.nil_append, List.mem_append, only, List.mem_map] at hx
    rcases hx with ⟨e, -, rfl⟩ | ⟨e, -, rfl⟩
    · exact ⟨repo1, e.1, rfl⟩
    · exact ⟨repo2, e.1, rfl⟩
  · intro name
    rw [gitcmp_filter_ref o1 o2 o3 repo1 repo2 A B hA hB name]
    cases ha : mapGet A name with
    | none => cases hb : mapGet B name <;> rfl
    | some a =>
      cases hb : mapGet B name with
      | none => rfl
      | some b =>
        have hab : a = b := h name a b ha hb
        simp [hab]

set_option maxRecDepth 100000 in
/-- Two maps that agree on `refs/heads/master`, the first with a branch of its
own and the second with a tag of its own: the two `Only in` lines are printed,
one for each of them, and the exit code is 0. -/
theorem gitcmp_exit_code_without_mismatch_witness :
    gitcmp RangeOrder.listed RangeOrder.listed RangeOrder.listed (ascii "u1") (ascii "u2")
        [(ascii "refs/heads/master", ascii "d049f6c27a2244e12041955e262a404c7faba355"),
         (ascii "refs/heads/topic", ascii "95dcfa3633004da0049d3d0fa03f80589cbcaf31")]
        [(ascii "refs/heads/master", ascii "d049f6c27a2244e12041955e262a404c7faba355"),
         (ascii "refs/tags/v1.0", ascii "2cb58b79488a98d2721cea644875a8dd0026b115")] =
      ([Line.onlyIn (ascii "u1") (ascii "refs/heads/topic"),
        Line.onlyIn (ascii "u2") (ascii "refs/tags/v1.0")], 0) ∧
    (gitcmp RangeOrder.listed RangeOrder.listed RangeOrder.listed (ascii "u1") (ascii "u2")
        [(ascii "refs/heads/master", ascii "d049f6c27a2244e12041955e262a404c7faba355"),
         (ascii "refs/heads/topic", ascii "95dcfa3633004da0049d3d0fa03f80589cbcaf31")]
        [(ascii "refs/heads/master", ascii "d049f6c27a2244e12041955e262a404c7faba355"),
         (ascii "refs/tags/v1.0", ascii "2cb58b79488a98d2721cea644875a8dd0026b115")]).1.filter
        (fun x => decide (x.ref = ascii "refs/heads/topic")) =
      [Line.onlyIn (ascii "u1") (ascii "refs/heads/topic")] :=
  ⟨by decide,
   (gitcmp_exit_code_without_mismatch RangeOrder.listed RangeOrder.listed RangeOrder.listed
      (ascii "u1") (ascii "u2")
      [(ascii "refs/heads/master", ascii "d049f6c27a2244e12041955e262a404c7faba355"),
       (ascii "refs/heads/topic", ascii "95dcfa3633004da0049d3d0fa03f80589cbcaf31")]
      [(ascii "refs/heads/master", ascii "d049f6c27a2244e12041955e262a404c7faba355"),
       (ascii "refs/tags/v1.0", ascii "2cb58b79488a98d2721cea644875a8dd0026b115")]
      (by decide) (by decide)
      (by
        intro k a b ha hb
        simp only [mapGet] at ha hb
        by_cases h1 : ascii "refs/heads/master" = k
        · rw [if_pos h1] at ha hb
          simp only [Option.some.injEq] at ha hb
          rw [← ha, ← hb]
        · rw [if_neg h1] at ha hb
          by_cases h2 : ascii "refs/heads/topic" = k
          · by_cases h3 : ascii "refs/tags/v1.0" = k
            · exact absurd (h2.trans h3.symm) (by decide)
            · rw [if_neg h3] at hb
              simp at hb
          · rw [if_neg h2] at ha
            simp at ha)).2.2 (ascii "refs/heads/topic")⟩

end Gitutil
